import Mathlib

/-!
Verification of the fleet-plan diff engine and parser against its
natural-language specification.

The Go sources (internal/diff/differ.go, internal/parser/parser.go and the
api package types) are shallowly embedded below: Go slices become lists,
Go maps become association lists built by last-write-wins insertion (or,
for lookup-only maps, a reverse-find over the building slice), nil slices
and nil maps become Option, and fallible or IO-bound operations take their
input (file contents, symlink resolution) as explicit oracle arguments.
-/

set_option maxHeartbeats 1000000

namespace FleetPlan

/-! ## Go string primitives -/

/-- Whitespace class of the RE2 regular expression backslash-s used by
wsRE in differ.go: tab, newline, form feed, carriage return, space. -/
def goRegexWS (c : Char) : Bool :=
  c = '\t' || c = '\n' || c = '\x0c' || c = '\r' || c = ' '

/-- Whitespace class of Go unicode.IsSpace, used by strings.TrimSpace. -/
def goUnicodeSpace (c : Char) : Bool :=
  c = '\t' || c = '\n' || c = '\x0b' || c = '\x0c' || c = '\r' || c = ' ' ||
  c = '\x85' || c = '\xa0' || c = '\u1680' ||
  ('\u2000' ≤ c && c ≤ '\u200a') ||
  c = '\u2028' || c = '\u2029' || c = '\u202f' || c = '\u205f' || c = '\u3000'

/-- List-level model of strings.TrimSpace: drop unicode whitespace from
both ends. -/
def goTrimList (l : List Char) : List Char :=
  (((l.dropWhile goUnicodeSpace).reverse.dropWhile goUnicodeSpace)).reverse

/-- String-level strings.TrimSpace. -/
def goTrimSpace (s : String) : String :=
  ⟨goTrimList s.data⟩

/-- Model of wsRE.ReplaceAllString(s, " "): replace every maximal run of
regex whitespace by a single space.  The boolean flag records whether the
previous character was part of a whitespace run. -/
def collapseAux : Bool → List Char → List Char
  | _, [] => []
  | prevWS, c :: rest =>
    if goRegexWS c then
      if prevWS then collapseAux true rest else ' ' :: collapseAux true rest
    else c :: collapseAux false rest

/-- Model of normalizeWS in differ.go: collapse whitespace runs to a single
space, then trim both ends. -/
def normalizeWS (s : String) : String :=
  ⟨goTrimList (collapseAux false s.data)⟩

/-- Maximal non-whitespace runs of a character list, in order.  Two strings
differ only in (interior, leading or trailing) whitespace runs exactly when
they have the same token list. -/
def tokensWS : List Char → List (List Char)
  | [] => []
  | c :: r =>
    if goRegexWS c then tokensWS r
    else
      match r with
      | [] => [[c]]
      | d :: _ =>
        if goRegexWS d then [c] :: tokensWS r
        else
          match tokensWS r with
          | [] => [[c]]
          | t :: ts => (c :: t) :: ts

/-- Join a token list with single spaces. -/
def normTok : List (List Char) → List Char
  | [] => []
  | [t] => t
  | t :: ts => t ++ ' ' :: normTok ts

/-- ASCII lower-casing of one character (the only case folding exercised by
the strings compared in this code base). -/
def goLowerChar (c : Char) : Char :=
  if 65 ≤ c.toNat ∧ c.toNat ≤ 90 then Char.ofNat (c.toNat + 32) else c

/-- Model of strings.ToLower restricted to ASCII. -/
def goToLower (s : String) : String :=
  ⟨s.data.map goLowerChar⟩

/-- Model of strings.Split for a one-character separator: Go semantics, so
the empty string yields one empty field and adjacent separators yield empty
fields. -/
def splitOnChar (sep : Char) : List Char → List (List Char)
  | [] => [[]]
  | c :: rest =>
    match splitOnChar sep rest with
    | [] => [[c]]
    | t :: ts => if c = sep then [] :: t :: ts else (c :: t) :: ts

/-- Byte-wise lexicographic comparison of two character lists, modelling
the Go string less-than used by sort.Slice and fmt map-key ordering. -/
def charListLt : List Char → List Char → Bool
  | [], [] => false
  | [], _ :: _ => true
  | _ :: _, [] => false
  | a :: as, b :: bs =>
    if a.toNat < b.toNat then true
    else if b.toNat < a.toNat then false
    else charListLt as bs

/-- Join string parts with a one-character separator. -/
def joinParts (sep : Char) : List String → String
  | [] => ""
  | [x] => x
  | x :: xs => x ++ String.mk [sep] ++ joinParts sep xs

/-- Model of strings.EqualFold restricted to simple ASCII case folding. -/
def goEqualFold (a b : String) : Bool :=
  goToLower a == goToLower b

/-- Go fmt.Sprint of a boolean. -/
def goBool (b : Bool) : String :=
  if b then "true" else "false"

/-- Go %q formatting of a plain string (no escapes needed for the names that
occur in messages). -/
def goQuote (s : String) : String :=
  "\"" ++ s ++ "\""

/-- Model of strings.Contains(s, t) via first index: index of the first
occurrence of needle in hay, if any. -/
def subIndex (needle : List Char) : List Char → Option Nat
  | [] => if needle.isEmpty then some 0 else none
  | c :: rest =>
    if needle.isPrefixOf (c :: rest) then some 0
    else (subIndex needle rest).map (· + 1)

/-- Model of strings.HasPrefix. -/
def goHasPrefix (s pre : List Char) : Bool :=
  pre.isPrefixOf s

/-- Model of strings.TrimPrefix. -/
def goTrimPrefix (s pre : List Char) : List Char :=
  if pre.isPrefixOf s then s.drop pre.length else s

/-- Model of strings.Contains(s, "$") as used by containsEnvVar: the marker
is a single character, so substring containment is character containment. -/
def containsChar (s : String) (c : Char) : Bool :=
  s.data.contains c

/-- Last-write-wins map lookup: Go code builds a map by inserting every
element of a slice keyed by a name (later inserts overwrite earlier ones)
and then looks a name up.  This equals finding the last slice element with
that name. -/
def goMapGet {α : Type} (key : α → String) (l : List α) (n : String) : Option α :=
  l.reverse.find? (fun x => key x == n)

theorem goMapGet_eq_none {α : Type} (key : α → String) (l : List α) (n : String) :
    goMapGet key l n = none ↔ ∀ x ∈ l, key x ≠ n := by
  simp [goMapGet, List.find?_eq_none]

theorem goMapGet_eq_some_mem {α : Type} {key : α → String} {l : List α} {n : String}
    {x : α} (h : goMapGet key l n = some x) : x ∈ l ∧ key x = n := by
  have hm := List.mem_of_find?_eq_some h
  have hp := List.find?_some h
  simp at hp
  exact ⟨by simpa using hm, hp⟩

/-- Association-list insertion with Go map semantics: overwrite the binding
in place if the key is present, append otherwise. -/
def mapInsert {α : Type} (m : List (String × α)) (k : String) (v : α) :
    List (String × α) :=
  if m.any (fun kv => kv.1 == k) then
    m.map (fun kv => if kv.1 == k then (k, v) else kv)
  else m ++ [(k, v)]

/-- Build a Go map from a slice, keyed by an extracted string, skipping
elements whose key is empty (several differ.go loops guard on key != ""). -/
def goMapBuild {α : Type} (key : α → String) (l : List α) : List (String × α) :=
  l.foldl (fun m x => if key x = "" then m else mapInsert m (key x) x) []

/-! ## API data model (internal/api, types consumed by the diff engine) -/

/-- Tree of configuration values as returned by GET /config.  A leaf stores
the string Go fmt.Sprint would render for the underlying scalar; a node is
a nested map in insertion order. -/
inductive CVal where
  | leaf : String → CVal
  | node : List (String × CVal) → CVal
deriving Repr

/-- Model of api.Policy. -/
structure ApiPolicy where
  name : String
  query : String
  description : String
  resolution : String
  platform : String
  critical : Bool
  passingHostCount : Nat
  failingHostCount : Nat
deriving Repr, DecidableEq

/-- Model of api.Query. -/
structure ApiQuery where
  name : String
  query : String
  interval : Nat
  platform : String
  logging : String
deriving Repr, DecidableEq

/-- Model of api.TeamSoftwarePackage. -/
structure TeamSoftwarePackage where
  url : String
  hashSHA256 : String
  selfService : Bool
  referencedYAMLPath : String
deriving Repr, DecidableEq

/-- Model of api.TeamFleetApp. -/
structure TeamFleetApp where
  slug : String
  selfService : Bool
deriving Repr, DecidableEq

/-- Model of api.TeamAppStoreApp. -/
structure TeamAppStoreApp where
  appStoreID : String
  selfService : Bool
deriving Repr, DecidableEq

/-- Model of api.TeamSoftware.  FleetMaintained is an Option because the
Fleet API can return null for it, which differ.go tests with == nil. -/
structure TeamSoftware where
  packages : List TeamSoftwarePackage
  fleetMaintained : Option (List TeamFleetApp)
  appStoreApps : List TeamAppStoreApp
deriving Repr, DecidableEq

/-- Model of api.FleetMaintainedApp (catalog entry). -/
structure FleetMaintainedApp where
  slug : String
  name : String
  platform : String
deriving Repr, DecidableEq

/-- Model of api.SoftwareTitleAppStore. -/
structure SoftwareTitleAppStore where
  appStoreID : String
  selfService : Bool
  platform : String
deriving Repr, DecidableEq

/-- Model of api.SoftwareTitlePackageMeta. -/
structure SoftwareTitlePackageMeta where
  name : String
  packageURL : String
  selfService : Bool
  platform : String
deriving Repr, DecidableEq

/-- Model of api.SoftwareTitle. -/
structure SoftwareTitle where
  name : String
  source : String
  hostCount : Nat
  appStoreApp : Option SoftwareTitleAppStore
  softwarePackage : Option SoftwareTitlePackageMeta
deriving Repr, DecidableEq

/-- Model of api.Label. -/
structure ApiLabel where
  name : String
  query : String
  platform : String
  hostCount : Nat
deriving Repr, DecidableEq

/-- Model of api.Profile. -/
structure ApiProfile where
  name : String
  platform : String
deriving Repr, DecidableEq

/-- Model of api.Team. -/
structure ApiTeam where
  name : String
  software : TeamSoftware
  policies : List ApiPolicy
  queries : List ApiQuery
  profiles : List ApiProfile
  softwareTitles : List SoftwareTitle
deriving Repr, DecidableEq

/-- Model of api.FleetState.  Config is an Option because Diff guards on
current.Config != nil. -/
structure FleetState where
  teams : List ApiTeam
  labels : List ApiLabel
  fleetMaintainedCatalog : List FleetMaintainedApp
  config : Option (List (String × CVal))
  globalPolicies : List ApiPolicy
  globalQueries : List ApiQuery

/-! ## Parser data model (internal/parser, normalized output) -/

/-- Model of parser.ParsedPolicy (SourceFile omitted: never read by diff). -/
structure ParsedPolicy where
  name : String
  description : String
  resolution : String
  query : String
  platform : String
  critical : Bool
  labelsIncludeAny : List String
  labelsExcludeAny : List String
deriving Repr, DecidableEq

/-- Model of parser.ParsedQuery. -/
structure ParsedQuery where
  name : String
  query : String
  interval : Nat
  platform : String
  logging : String
deriving Repr, DecidableEq

/-- Model of parser.ParsedSoftwarePackage. -/
structure ParsedSoftwarePackage where
  url : String
  hashSHA256 : String
  selfService : Bool
  sourceFile : String
  refPath : String
deriving Repr, DecidableEq

/-- Model of parser.ParsedFleetApp. -/
structure ParsedFleetApp where
  slug : String
  selfService : Bool
deriving Repr, DecidableEq

/-- Model of parser.ParsedAppStoreApp. -/
structure ParsedAppStoreApp where
  appStoreID : String
  selfService : Bool
deriving Repr, DecidableEq

/-- Model of parser.ParsedSoftware. -/
structure ParsedSoftware where
  packages : List ParsedSoftwarePackage
  fleetMaintained : List ParsedFleetApp
  appStoreApps : List ParsedAppStoreApp
deriving Repr, DecidableEq

/-- Model of parser.ParsedProfile. -/
structure ParsedProfile where
  path : String
  name : String
  platform : String
deriving Repr, DecidableEq

/-- Model of parser.ParsedTeam. -/
structure ParsedTeam where
  name : String
  policies : List ParsedPolicy
  queries : List ParsedQuery
  software : ParsedSoftware
  profiles : List ParsedProfile
deriving Repr, DecidableEq

/-- Model of parser.ParsedGlobal.  The three config sections are Options
because diffConfig skips a section whose map is nil. -/
structure ParsedGlobal where
  orgSettings : Option (List (String × CVal))
  agentOptions : Option (List (String × CVal))
  controls : Option (List (String × CVal))
  policies : List ParsedPolicy
  queries : List ParsedQuery

/-- Model of parser.ParsedRepo (errors omitted: never read by diff). -/
structure ParsedRepo where
  teams : List ParsedTeam
  labels : List String
  global : Option ParsedGlobal

/-! ## Diff result types (differ.go) -/

/-- Model of diff.FieldDiff. -/
structure FieldDiff where
  old : String
  new : String
deriving Repr, DecidableEq

/-- Model of diff.ResourceChange.  The Fields map is kept as an association
list in insertion order; its keys are pairwise distinct. -/
structure ResourceChange where
  name : String
  fields : List (String × FieldDiff)
  hostCount : Nat
  warning : String
deriving Repr, DecidableEq

/-- Model of diff.ResourceDiff. -/
structure ResourceDiff where
  added : List ResourceChange
  modified : List ResourceChange
  deleted : List ResourceChange
deriving Repr, DecidableEq

/-- Model of diff.ConfigChange.  The Section field is renamed sectionName
because section is a Lean keyword. -/
structure ConfigChange where
  sectionName : String
  key : String
  old : String
  new : String
deriving Repr, DecidableEq

/-- Model of diff.LabelRef. -/
structure LabelRef where
  name : String
  hostCount : Nat
  referencedBy : String
deriving Repr, DecidableEq

/-- Model of diff.LabelValidation. -/
structure LabelValidation where
  valid : List LabelRef
  missing : List LabelRef
deriving Repr, DecidableEq

/-- Model of diff.DiffResult. -/
structure DiffResult where
  team : String
  policies : ResourceDiff
  queries : ResourceDiff
  software : ResourceDiff
  profiles : ResourceDiff
  labels : LabelValidation
  config : List ConfigChange
  errors : List String
deriving Repr

/-! ## Diff engine (differ.go) -/

/-- First-match association lookup (Go map read; keys are unique in every
map built by mapInsert or goMapBuild, so first match is the binding). -/
def assocGet {α : Type} (m : List (String × α)) (k : String) : Option α :=
  (m.find? (fun kv => kv.1 == k)).map (fun kv => kv.2)

/-- Model of diffPolicies, lines 199-209 of differ.go: the Fields map of an
Added policy. -/
def mkAddedPolicyFields (p : ParsedPolicy) : List (String × FieldDiff) :=
  [("query", ⟨"", normalizeWS p.query⟩),
   ("platform", ⟨"", p.platform⟩),
   ("critical", ⟨"", goBool p.critical⟩)] ++
  (if p.description ≠ "" then [("description", ⟨"", normalizeWS p.description⟩)] else []) ++
  (if p.resolution ≠ "" then [("resolution", ⟨"", normalizeWS p.resolution⟩)] else [])

/-- Model of diffPolicies, lines 214-229 of differ.go: the per-field
comparison of a matched policy pair. -/
def policyFields (cur : ApiPolicy) (p : ParsedPolicy) : List (String × FieldDiff) :=
  (if normalizeWS cur.query ≠ normalizeWS p.query then
    [("query", ⟨normalizeWS cur.query, normalizeWS p.query⟩)] else []) ++
  (if normalizeWS cur.description ≠ normalizeWS p.description then
    [("description", ⟨normalizeWS cur.description, normalizeWS p.description⟩)] else []) ++
  (if normalizeWS cur.resolution ≠ normalizeWS p.resolution then
    [("resolution", ⟨normalizeWS cur.resolution, normalizeWS p.resolution⟩)] else []) ++
  (if cur.platform ≠ p.platform then [("platform", ⟨cur.platform, p.platform⟩)] else []) ++
  (if cur.critical ≠ p.critical then
    [("critical", ⟨goBool cur.critical, goBool p.critical⟩)] else [])

/-- Model of diffPolicies.  The single Go loop over proposed appends each
item to exactly one of Added and Modified, in order, which equals the two
order-preserving filterMaps below; the Deleted loop runs after the full
proposed loop, so it sees every proposed name. -/
def diffPolicies (current : List ApiPolicy) (proposed : List ParsedPolicy) : ResourceDiff :=
  let added := proposed.filterMap (fun p =>
    match goMapGet ApiPolicy.name current p.name with
    | none => some ⟨p.name, mkAddedPolicyFields p, 0, ""⟩
    | some _ => none)
  let modified := proposed.filterMap (fun p =>
    match goMapGet ApiPolicy.name current p.name with
    | none => none
    | some cur =>
      let fields := policyFields cur p
      if fields = [] then none
      else some ⟨p.name, fields, cur.passingHostCount + cur.failingHostCount, ""⟩)
  let deleted := current.filterMap (fun cur =>
    if proposed.any (fun p => p.name == cur.name) then none
    else
      let hostCount := cur.passingHostCount + cur.failingHostCount
      let warning := if hostCount > 0 then
        "will delete policy affecting " ++ toString hostCount ++ " hosts" else ""
      some ⟨cur.name, [], hostCount, warning⟩)
  ⟨added, modified, deleted⟩

/-- Model of diffQueries, lines 272-279 of differ.go: the Fields map of an
Added query. -/
def mkAddedQueryFields (q : ParsedQuery) : List (String × FieldDiff) :=
  [("query", ⟨"", normalizeWS q.query⟩),
   ("interval", ⟨"", toString q.interval⟩),
   ("platform", ⟨"", q.platform⟩)] ++
  (if q.logging ≠ "" then [("logging", ⟨"", q.logging⟩)] else [])

/-- Model of diffQueries, lines 284-299 of differ.go: the per-field
comparison of a matched query pair. -/
def queryFields (cur : ApiQuery) (q : ParsedQuery) : List (String × FieldDiff) :=
  (if normalizeWS cur.query ≠ normalizeWS q.query then
    [("query", ⟨normalizeWS cur.query, normalizeWS q.query⟩)] else []) ++
  (if cur.interval ≠ q.interval then
    [("interval", ⟨toString cur.interval, toString q.interval⟩)] else []) ++
  (if cur.platform ≠ q.platform then [("platform", ⟨cur.platform, q.platform⟩)] else []) ++
  (if cur.logging ≠ q.logging ∧ q.logging ≠ "" then
    [("logging", ⟨cur.logging, q.logging⟩)] else [])

/-- Model of diffQueries, with the same loop-to-filterMap translation as
diffPolicies. -/
def diffQueries (current : List ApiQuery) (proposed : List ParsedQuery) : ResourceDiff :=
  let added := proposed.filterMap (fun q =>
    match goMapGet ApiQuery.name current q.name with
    | none => some ⟨q.name, mkAddedQueryFields q, 0, ""⟩
    | some _ => none)
  let modified := proposed.filterMap (fun q =>
    match goMapGet ApiQuery.name current q.name with
    | none => none
    | some cur =>
      let fields := queryFields cur q
      if fields = [] then none else some ⟨q.name, fields, 0, ""⟩)
  let deleted := current.filterMap (fun cur =>
    if proposed.any (fun q => q.name == cur.name) then none
    else some ⟨cur.name, [], 0, ""⟩)
  ⟨added, modified, deleted⟩

/-- Model of normalizeSoftwarePath: the loop stripping every leading "../"
occurrence (written as structural recursion on the matched prefix). -/
def stripLeadingDotDot : List Char → List Char
  | '.' :: '.' :: '/' :: rest => stripLeadingDotDot rest
  | l => l

/-- Model of normalizeSoftwarePath in differ.go. -/
def normalizeSoftwarePath (s : String) : String :=
  let s1 := goTrimSpace (goToLower s)
  if s1 = "" then ""
  else
    let l := s1.data.map (fun c => if c = '\\' then '/' else c)
    let l := goTrimPrefix l ['.', '/']
    let l := stripLeadingDotDot l
    let l := goTrimPrefix l ['/']
    ⟨l⟩

/-- Model of inferSoftwarePathFromSource in differ.go. -/
def inferSoftwarePathFromSource (source : String) : String :=
  let l := source.data.map (fun c => if c = '\\' then '/' else c)
  match subIndex "/software/".data l with
  | some idx => ⟨goTrimPrefix (l.drop (idx + 1)) ['/']⟩
  | none => ""

/-- Insertion step of the sort used to model sort.Slice on a bucket. -/
def insertByName (x : ResourceChange) : List ResourceChange → List ResourceChange
  | [] => [x]
  | y :: ys => if charListLt y.name.data x.name.data then y :: insertByName x ys else x :: y :: ys

/-- Comparison sort on Name, modelling sort.Slice with the less function
of sortResourceChanges. -/
def sortByName : List ResourceChange → List ResourceChange
  | [] => []
  | x :: xs => insertByName x (sortByName xs)

/-- Model of sortResourceChanges in differ.go. -/
def sortResourceChanges (rd : ResourceDiff) : ResourceDiff :=
  ⟨sortByName rd.added, sortByName rd.modified, sortByName rd.deleted⟩

/-- Key of a current software package: referenced_yaml_path, falling back
to the URL (differ.go lines 323-331). -/
def pkgKeyCurrent (p : TeamSoftwarePackage) : String :=
  let key := normalizeSoftwarePath p.referencedYAMLPath
  if key = "" then normalizeSoftwarePath p.url else key

/-- Key of a proposed software package: RefPath, then source-file inference,
then URL (differ.go lines 334-345). -/
def pkgKeyProposed (p : ParsedSoftwarePackage) : String :=
  let key := normalizeSoftwarePath p.refPath
  let key := if key = "" then inferSoftwarePathFromSource p.sourceFile else key
  if key = "" then normalizeSoftwarePath p.url else key

/-- Key of a fleet-maintained app entry. -/
def fleetAppKey (slug : String) : String :=
  normalizeSoftwarePath slug

/-- Fields of an Added software package (differ.go lines 350-356). -/
def pkgAddedFields (p : ParsedSoftwarePackage) : List (String × FieldDiff) :=
  [("url", FieldDiff.mk "" p.url),
   ("self_service", FieldDiff.mk "" (goBool p.selfService))] ++
  (if p.hashSHA256 ≠ "" then [("hash_sha256", FieldDiff.mk "" p.hashSHA256)] else [])

/-- Fields of a matched software package pair (differ.go lines 360-369). -/
def pkgModifiedFields (cur : TeamSoftwarePackage) (p : ParsedSoftwarePackage) :
    List (String × FieldDiff) :=
  (if cur.url ≠ p.url then [("url", FieldDiff.mk cur.url p.url)] else []) ++
  (if cur.hashSHA256 ≠ p.hashSHA256 then
    [("hash_sha256", FieldDiff.mk cur.hashSHA256 p.hashSHA256)] else []) ++
  (if cur.selfService ≠ p.selfService then
    [("self_service", FieldDiff.mk (goBool cur.selfService) (goBool p.selfService))] else [])

/-- Packages part of diffSoftware (keys: referenced yaml path). -/
def diffSoftwarePackages (current : List TeamSoftwarePackage)
    (proposed : List ParsedSoftwarePackage) :
    List ResourceChange × List ResourceChange × List ResourceChange :=
  let currentPkgs : List (String × TeamSoftwarePackage) := goMapBuild pkgKeyCurrent current
  let proposedPkgs : List (String × ParsedSoftwarePackage) := goMapBuild pkgKeyProposed proposed
  let added : List ResourceChange := proposedPkgs.filterMap (fun kp =>
    match assocGet currentPkgs kp.1 with
    | some _ => none
    | none => some (ResourceChange.mk (normalizeSoftwarePath kp.1) (pkgAddedFields kp.2) 0 ""))
  let modified : List ResourceChange := proposedPkgs.filterMap (fun kp =>
    match assocGet currentPkgs kp.1 with
    | none => none
    | some cur =>
      if pkgModifiedFields cur kp.2 = [] then none
      else some (ResourceChange.mk (normalizeSoftwarePath kp.1) (pkgModifiedFields cur kp.2) 0 ""))
  let deleted : List ResourceChange := currentPkgs.filterMap (fun kp =>
    match assocGet proposedPkgs kp.1 with
    | some _ => none
    | none => some (ResourceChange.mk (normalizeSoftwarePath kp.1) [] 0 ""))
  (added, modified, deleted)

/-- Fleet-maintained-apps part of diffSoftware (keys: normalized slug). -/
def diffSoftwareFleet (current : Option (List TeamFleetApp))
    (proposed : List ParsedFleetApp) :
    List ResourceChange × List ResourceChange × List ResourceChange :=
  let currentFleet : List (String × TeamFleetApp) :=
    goMapBuild (fun a => fleetAppKey a.slug) (current.getD [])
  let proposedFleet : List (String × ParsedFleetApp) :=
    goMapBuild (fun a => fleetAppKey a.slug) proposed
  let added : List ResourceChange := proposedFleet.filterMap (fun kp =>
    match assocGet currentFleet kp.1 with
    | some _ => none
    | none => some (ResourceChange.mk ("fleet app " ++ kp.1)
        [("slug", FieldDiff.mk "" kp.2.slug),
         ("self_service", FieldDiff.mk "" (goBool kp.2.selfService))] 0 ""))
  let modified : List ResourceChange := proposedFleet.filterMap (fun kp =>
    match assocGet currentFleet kp.1 with
    | none => none
    | some cur =>
      if cur.selfService ≠ kp.2.selfService then
        some (ResourceChange.mk ("fleet app " ++ kp.1)
          [("self_service", FieldDiff.mk (goBool cur.selfService) (goBool kp.2.selfService))] 0 "")
      else none)
  let deleted : List ResourceChange := currentFleet.filterMap (fun kp =>
    match assocGet proposedFleet kp.1 with
    | some _ => none
    | none => some (ResourceChange.mk ("fleet app " ++ kp.1) [] 0 ""))
  (added, modified, deleted)

/-- App-store-apps part of diffSoftware (keys: trimmed app store id). -/
def diffSoftwareStore (current : List TeamAppStoreApp)
    (proposed : List ParsedAppStoreApp) :
    List ResourceChange × List ResourceChange × List ResourceChange :=
  let currentApps : List (String × TeamAppStoreApp) :=
    goMapBuild (fun a => goTrimSpace a.appStoreID) current
  let proposedApps : List (String × ParsedAppStoreApp) :=
    goMapBuild (fun a => goTrimSpace a.appStoreID) proposed
  let added : List ResourceChange := proposedApps.filterMap (fun kp =>
    match assocGet currentApps kp.1 with
    | some _ => none
    | none => some (ResourceChange.mk ("app store app " ++ kp.1)
        [("app_store_id", FieldDiff.mk "" kp.2.appStoreID),
         ("self_service", FieldDiff.mk "" (goBool kp.2.selfService))] 0 ""))
  let modified : List ResourceChange := proposedApps.filterMap (fun kp =>
    match assocGet currentApps kp.1 with
    | none => none
    | some cur =>
      if cur.selfService ≠ kp.2.selfService then
        some (ResourceChange.mk ("app store app " ++ kp.1)
          [("self_service", FieldDiff.mk (goBool cur.selfService) (goBool kp.2.selfService))] 0 "")
      else none)
  let deleted : List ResourceChange := currentApps.filterMap (fun kp =>
    match assocGet proposedApps kp.1 with
    | some _ => none
    | none => some (ResourceChange.mk ("app store app " ++ kp.1) [] 0 ""))
  (added, modified, deleted)

/-- Model of diffSoftware in differ.go: three independently keyed
sub-collections (packages, fleet-maintained apps, app store apps), each
hash-joined, then the buckets are sorted. -/
def diffSoftware (current : TeamSoftware) (proposed : ParsedSoftware) : ResourceDiff :=
  let pkg := diffSoftwarePackages current.packages proposed.packages
  let fleet := diffSoftwareFleet current.fleetMaintained proposed.fleetMaintained
  let store := diffSoftwareStore current.appStoreApps proposed.appStoreApps
  sortResourceChanges
    (ResourceDiff.mk (pkg.1 ++ fleet.1 ++ store.1)
      (pkg.2.1 ++ fleet.2.1 ++ store.2.1)
      (pkg.2.2 ++ fleet.2.2 ++ store.2.2))

/-- Model of normalizeFleetPlatform in differ.go. -/
def normalizeFleetPlatform (platform : String) : String :=
  let p := goTrimSpace (goToLower platform)
  if p = "macos" then "darwin" else p

/-- Model of fleetCatalogKey in differ.go. -/
def fleetCatalogKey (name platform : String) : String :=
  let name := goTrimSpace (goToLower name)
  let platform := normalizeFleetPlatform platform
  if name = "" ∨ platform = "" then "" else name ++ "|" ++ platform

/-- Model of inferFleetMaintainedApps in differ.go.  Returns none exactly
where the Go function returns nil. -/
def inferFleetMaintainedApps (team : ApiTeam) (catalog : List FleetMaintainedApp) :
    Option (List TeamFleetApp) :=
  if team.softwareTitles.length = 0 ∨ catalog.length = 0 then none
  else
    let customPackageURLs := team.software.packages.filterMap (fun p =>
      let u := normalizeSoftwarePath p.url
      if u = "" then none else some u)
    let catalogByNamePlatform := catalog.foldl (fun m app =>
      let key := fleetCatalogKey app.name app.platform
      if key = "" then m
      else mapInsert m key ((assocGet m key).getD [] ++ [app])) []
    let inferred := team.softwareTitles.foldl (fun m title =>
      if ¬ (goEqualFold (goTrimSpace title.source) "apps" = true) then m
      else if title.appStoreApp.isSome then m
      else
        match title.softwarePackage with
        | none => m
        | some sp =>
          let packageURL := normalizeSoftwarePath sp.packageURL
          if packageURL ≠ "" ∧ packageURL ∈ customPackageURLs then m
          else
            let key := fleetCatalogKey title.name sp.platform
            match (assocGet catalogByNamePlatform key).getD [] with
            | [catApp] =>
              let slug := normalizeSoftwarePath catApp.slug
              if slug = "" then m
              else mapInsert m slug ⟨slug, sp.selfService⟩
            | _ => m) []
    if inferred.length = 0 then none
    else some (inferred.map (fun kv => kv.2))

/-- Fields attached to an Added profile entry (differ.go lines 615-620). -/
def profileAddedFields (p : ParsedProfile) : List (String × FieldDiff) :=
  [("platform", FieldDiff.mk "" p.platform)] ++
    (if p.path ≠ "" then [("path", FieldDiff.mk "" p.path)] else [])

/-- Loop body of diffProfiles (differ.go lines 608-626).  State is (seen
proposed names, Added entries, warnings); the duplicate warning reads the
seen set before the current name is added to it. -/
def profileStep (current : List ApiProfile)
    (st : List String × List ResourceChange × List String) (p : ParsedProfile) :
    List String × List ResourceChange × List String :=
  (st.1 ++ [p.name],
   (if (goMapGet ApiProfile.name current p.name).isSome then st.2.1
    else st.2.1 ++ [⟨p.name, profileAddedFields p, 0, ""⟩]),
   (if p.name ∈ st.1 then st.2.2 ++ ["duplicate profile name " ++ goQuote p.name ++
       " derived from " ++ goQuote p.path ++ " (conflicts with another profile)"]
    else st.2.2))

/-- Model of diffProfiles in differ.go: a single stateful loop over the
proposed profiles tracking seen names, then a Deleted pass. -/
def diffProfiles (current : List ApiProfile) (proposed : List ParsedProfile) :
    ResourceDiff × List String :=
  let st := proposed.foldl (profileStep current) ([], [], [])
  let deleted := current.filterMap (fun cur =>
    if cur.name ∈ st.1 then none else some ⟨cur.name, [], 0, ""⟩)
  (⟨st.2.1, [], deleted⟩, st.2.2)

/-- Model of changedNames in differ.go. -/
def changedNames (d : ResourceDiff) : List String :=
  d.added.map (fun c => c.name) ++ d.modified.map (fun c => c.name) ++
    d.deleted.map (fun c => c.name)

/-- Model of the checkLabel closure of validateLabels: state is (seen names,
valid refs, missing refs). -/
def checkLabelStep (labels : List ApiLabel) (refBy : String)
    (st : List String × List LabelRef × List LabelRef) (name : String) :
    List String × List LabelRef × List LabelRef :=
  if name ∈ st.1 then st
  else
    match goMapGet ApiLabel.name labels name with
    | some l => (st.1 ++ [name], st.2.1 ++ [⟨name, l.hostCount, refBy⟩], st.2.2)
    | none => (st.1 ++ [name], st.2.1, st.2.2 ++ [⟨name, 0, refBy⟩])

/-- Model of validateLabels in differ.go. -/
def validateLabels (team : ParsedTeam) (labels : List ApiLabel)
    (changed : List String) : LabelValidation :=
  let st := team.policies.foldl (fun st p =>
    if p.name ∈ changed then
      (p.labelsIncludeAny ++ p.labelsExcludeAny).foldl (checkLabelStep labels p.name) st
    else st) ([], [], [])
  ⟨st.2.1, st.2.2⟩

/-! ## Global config diffing (differ.go) -/

/-- Model of containsEnvVar in differ.go: the string contains the dollar
placeholder marker. -/
def containsEnvVar (s : String) : Bool :=
  containsChar s '$'

/-- Insertion step for sorting rendered map entries by key, as Go fmt does
when printing a map. -/
def insertPairByKey (x : String × String) :
    List (String × String) → List (String × String)
  | [] => [x]
  | y :: ys => if charListLt y.1.data x.1.data then y :: insertPairByKey x ys else x :: y :: ys

/-- Sort rendered map entries by key. -/
def sortPairsByKey : List (String × String) → List (String × String)
  | [] => []
  | x :: xs => insertPairByKey x (sortPairsByKey xs)

mutual

/-- Go fmt.Sprint of a config value: a leaf is its stored rendering, a map
prints as map[k1:v1 k2:v2] with keys sorted. -/
def cvalSprint : CVal → String
  | .leaf s => s
  | .node m =>
    "map[" ++
      joinParts ' '
        ((sortPairsByKey (cvalSprintEntries m)).map (fun kv => kv.1 ++ ":" ++ kv.2)) ++
      "]"

/-- Render every entry of a config map. -/
def cvalSprintEntries : List (String × CVal) → List (String × String)
  | [] => []
  | (k, v) :: rest => (k, cvalSprint v) :: cvalSprintEntries rest

end

/-- Model of flattenMap in differ.go: recursively flatten a nested map into
dot-separated leaf keys with their rendered values, in entry order. -/
def flattenEntries : List (String × CVal) → String → List (String × String)
  | [], _ => []
  | (k, v) :: rest, pre =>
    let fullKey := if pre = "" then k else pre ++ "." ++ k
    (match v with
     | .leaf s => [(fullKey, s)]
     | .node m => flattenEntries m fullKey) ++ flattenEntries rest pre

/-- Model of the loop body of getNestedValue in differ.go, over the split
key parts. -/
def getNestedParts : List (String × CVal) → List String → String
  | _, [] => ""
  | m, [p] =>
    match assocGet m p with
    | none => ""
    | some v => cvalSprint v
  | m, p :: q :: rest =>
    match assocGet m p with
    | none => ""
    | some (.node m2) => getNestedParts m2 (q :: rest)
    | some (.leaf _) => ""

/-- Model of getNestedValue in differ.go. -/
def getNestedValue (m : List (String × CVal)) (key : String) : String :=
  getNestedParts m ((splitOnChar '.' key.data).map String.mk)

/-- Model of one iteration of the section loop of diffConfig, for a named
section with its proposed map (none models a nil Go map, which the loop
skips). -/
def diffConfigSection (apiConfig : List (String × CVal)) (sectionName : String)
    (proposedMap : Option (List (String × CVal))) : List ConfigChange :=
  match proposedMap with
  | none => []
  | some m =>
    let apiSection : Option (List (String × CVal)) :=
      if sectionName = "org_settings" then some apiConfig
      else if sectionName = "agent_options" then
        match assocGet apiConfig "agent_options" with
        | some (.node m2) => some m2
        | _ => none
      else if sectionName = "controls" then some apiConfig
      else none
    match apiSection with
    | none =>
      (flattenEntries m "").filterMap (fun kv =>
        if containsEnvVar kv.2 then none
        else some ⟨sectionName, kv.1, "", kv.2⟩)
    | some api =>
      (flattenEntries m "").filterMap (fun kv =>
        if containsEnvVar kv.2 then none
        else
          let apiVal := getNestedValue api kv.1
          if apiVal ≠ kv.2 then some ⟨sectionName, kv.1, apiVal, kv.2⟩ else none)

/-- Model of diffConfig in differ.go.  Go iterates its three-entry section
map in unspecified order; the fixed order below only fixes the order of the
returned list, not its contents. -/
def diffConfig (apiConfig : List (String × CVal)) (proposed : ParsedGlobal) :
    List ConfigChange :=
  diffConfigSection apiConfig "org_settings" proposed.orgSettings ++
  diffConfigSection apiConfig "agent_options" proposed.agentOptions ++
  diffConfigSection apiConfig "controls" proposed.controls

/-! ## Top-level Diff (differ.go) -/

/-- Message attached to a proposed team matching the reserved "No team"
sentinel. -/
def noTeamMsg (p q : Nat) : String :=
  toString p ++ " policies, " ++ toString q ++
    " queries configured (no API diff available for \"No team\")"

/-- Informational message attached to a genuinely new team. -/
def newTeamMsg (name : String) : String :=
  "info: team " ++ goQuote name ++ " does not exist in Fleet yet (will be created)"

/-- Model of the per-team loop body of Diff (differ.go lines 129-178). -/
def diffTeam (currentTeams : List ApiTeam) (labels : List ApiLabel)
    (catalog : List FleetMaintainedApp) (proposedTeam : ParsedTeam) : DiffResult :=
  match goMapGet ApiTeam.name currentTeams proposedTeam.name with
  | none =>
    if goEqualFold proposedTeam.name "No team" then
      let pCount := proposedTeam.policies.length
      let qCount := proposedTeam.queries.length
      let errors := if pCount > 0 ∨ qCount > 0 then [noTeamMsg pCount qCount] else []
      let policies : ResourceDiff := ⟨[], [], []⟩
      { team := proposedTeam.name, policies := policies, queries := ⟨[], [], []⟩,
        software := ⟨[], [], []⟩, profiles := ⟨[], [], []⟩,
        labels := validateLabels proposedTeam labels (changedNames policies),
        config := [], errors := errors }
    else
      let policies : ResourceDiff :=
        ⟨proposedTeam.policies.map (fun p => ⟨p.name, [], 0, ""⟩), [], []⟩
      let queries : ResourceDiff :=
        ⟨proposedTeam.queries.map (fun q => ⟨q.name, [], 0, ""⟩), [], []⟩
      { team := proposedTeam.name, policies := policies, queries := queries,
        software := ⟨[], [], []⟩, profiles := ⟨[], [], []⟩,
        labels := validateLabels proposedTeam labels (changedNames policies),
        config := [], errors := [newTeamMsg proposedTeam.name] }
  | some currentTeam =>
    let policies := diffPolicies currentTeam.policies proposedTeam.policies
    let queries := diffQueries currentTeam.queries proposedTeam.queries
    let currentSoftware :=
      if currentTeam.software.fleetMaintained.isNone ∧
          proposedTeam.software.fleetMaintained.length > 0 then
        { currentTeam.software with
            fleetMaintained := inferFleetMaintainedApps currentTeam catalog }
      else currentTeam.software
    let software := diffSoftware currentSoftware proposedTeam.software
    let pr := diffProfiles currentTeam.profiles proposedTeam.profiles
    { team := proposedTeam.name, policies := policies, queries := queries,
      software := software, profiles := pr.1,
      labels := validateLabels proposedTeam labels (changedNames policies),
      config := [], errors := pr.2 }

/-- Model of Diff in differ.go: an optional global result (default.yml,
only without a team filter) followed by one result per proposed team that
passes the case-insensitive team filter. -/
def Diff (current : FleetState) (proposed : ParsedRepo) (teamFilter : String) :
    List DiffResult :=
  let globalResults : List DiffResult :=
    match proposed.global with
    | some g =>
      if teamFilter = "" then
        [{ team := "(global)",
           policies := diffPolicies current.globalPolicies g.policies,
           queries := diffQueries current.globalQueries g.queries,
           software := ⟨[], [], []⟩, profiles := ⟨[], [], []⟩,
           labels := ⟨[], []⟩,
           config := match current.config with
             | some cfg => diffConfig cfg g
             | none => [],
           errors := [] }]
      else []
    | none => []
  globalResults ++
    (proposed.teams.filter (fun t => teamFilter == "" || goEqualFold t.name teamFilter)).map
      (diffTeam current.teams current.labels current.fleetMaintainedCatalog)

/-! ## Parser: path resolution and containment (parser.go)

Absolute file-system paths are modelled as lists of components (the list
for the path slash a slash b is a then b); the file system and symlink
structure are oracles.  ParseRepo always sets the package-level repoRoot
before any reference is resolved, so the repoRoot is a plain parameter. -/

/-- Model of parser.ParseError (the Line field, always zero in the resolver
paths modelled here, is omitted). -/
structure ParseError where
  file : String
  message : String
deriving Repr, DecidableEq

/-- Render a component list as the absolute path string Go would print. -/
def renderPath (p : List String) : String :=
  "/" ++ joinParts '/' p

/-- Model of filepath.Join(baseDir, relPath) followed by the lexical clean
Join performs: empty and dot components vanish, dot-dot pops (and vanishes
at the root, as Clean does for absolute paths). -/
def joinPath (base : List String) (rel : String) : List String :=
  ((splitOnChar '/' rel.data).map String.mk).foldl (fun acc part =>
    if part = "" ∨ part = "." then acc
    else if part = ".." then acc.dropLast
    else acc ++ [part]) base

/-- Apply a symlink-evaluation oracle as filepath.EvalSymlinks is used in
safePath: on failure (none) fall back to the lexical path. -/
def evalOr (eval : List String → Option (List String)) (p : List String) : List String :=
  (eval p).getD p

/-- Model of safePath in parser.go: after symlink evaluation of both sides,
the resolved path must equal the root or extend it by whole components
(HasPrefix with a trailing separator).  Returns the error message, if any. -/
def safePath (eval : List String → Option (List String))
    (root resolved : List String) : Option String :=
  let absResolved := evalOr eval resolved
  let absRoot := evalOr eval root
  if absRoot.isPrefixOf absResolved then none
  else some ("path " ++ goQuote (renderPath resolved) ++
    " escapes repository root " ++ goQuote (renderPath root))

/-- Model of readYAMLRef in parser.go: returns the file data (none when
nothing was read), the resolved path and the errors.  The file system is
the oracle fs; a none from fs is an unreadable file. -/
def readYAMLRef (eval : List String → Option (List String))
    (fs : List String → Option String) (repoRoot baseDir : List String)
    (refPath parentFile label : String) :
    Option String × List String × List ParseError :=
  if refPath = "" then
    (none, [], [⟨parentFile, "empty " ++ label ++ "path: reference"⟩])
  else
    let resolved := joinPath baseDir refPath
    match safePath eval repoRoot resolved with
    | some msg => (none, [], [⟨parentFile, msg⟩])
    | none =>
      match fs resolved with
      | none => (none, [], [⟨parentFile,
          label ++ "path reference " ++ goQuote refPath ++ ": read error"⟩])
      | some data => (some data, resolved, [])

/-- Model of resolvePolicyRef in parser.go: read the reference, then parse
its YAML through the parse oracle (which covers both the list form and the
single-document fallback). -/
def resolvePolicyRef (eval : List String → Option (List String))
    (fs : List String → Option String)
    (parse : String → Option (List ParsedPolicy))
    (repoRoot baseDir : List String) (refPath parentFile : String) :
    List ParsedPolicy × List ParseError :=
  match readYAMLRef eval fs repoRoot baseDir refPath parentFile "" with
  | (none, _, errs) => ([], errs)
  | (some data, resolved, _) =>
    match parse data with
    | some items => (items, [])
    | none => ([], [⟨renderPath resolved, "YAML parse error"⟩])

/-- Model of the policy-reference loop of parseTeamFile (lines 335-339):
each reference contributes its policies and its errors, in order. -/
def resolvePolicyRefs (eval : List String → Option (List String))
    (fs : List String → Option String)
    (parse : String → Option (List ParsedPolicy))
    (repoRoot baseDir : List String) (parentFile : String)
    (refs : List String) : List ParsedPolicy × List ParseError :=
  refs.foldl (fun acc ref =>
    (acc.1 ++ (resolvePolicyRef eval fs parse repoRoot baseDir ref parentFile).1,
     acc.2 ++ (resolvePolicyRef eval fs parse repoRoot baseDir ref parentFile).2)) ([], [])

/-! ## Parser: software package dedup (parseTeamFile lines 349-381) -/

/-- Model of path.Clean on a slash-separated path. -/
def cleanSlashPath (p : String) : String :=
  let abs := p.data.head? = some '/'
  let parts := ((splitOnChar '/' p.data).map String.mk).foldl (fun acc part =>
    if part = "" ∨ part = "." then acc
    else if part = ".." then
      if acc ≠ [] ∧ acc.getLast? ≠ some ".." then acc.dropLast
      else if abs then acc else acc ++ [".."]
    else acc ++ [part]) []
  let body := joinParts '/' parts
  if abs then "/" ++ body else if body = "" then "." else body

/-- Model of normalizeSoftwareRefPath in parser.go.  filepath.ToSlash is the
identity on the slash-separated paths modelled here. -/
def normalizeSoftwareRefPath (p : String) : String :=
  let p := goTrimSpace p
  if p = "" then ""
  else
    let p := cleanSlashPath p
    let l := goTrimPrefix p.data ['.', '/']
    let l := stripLeadingDotDot l
    let l := goTrimPrefix l ['/']
    ⟨l⟩

/-- Resolution outcome of one software path reference of a team file, as
input to the assembly loop: the reference string, its optional self_service
override, the packages returned by resolveSoftwareRef paired with the
repo-root-relative form of their SourceFile when filepath.Rel succeeds, and
the resolution errors. -/
structure SoftwareRefInput where
  refPath : String
  selfServiceOverride : Option Bool
  resolved : List (ParsedSoftwarePackage × Option String)
  errs : List ParseError
deriving Repr, DecidableEq

/-- Canonical reference of one resolved package (parseTeamFile lines
352-361): the normalized repo-relative source file when available and
nonempty, otherwise the normalized reference path. -/
def canonicalSoftwareRef (refPath : String) (relSrc : Option String) : String :=
  let c := match relSrc with
    | some rel => normalizeSoftwareRefPath rel
    | none => ""
  if c = "" then normalizeSoftwareRefPath refPath else c

/-- One package step of the software assembly loop: state is (seen
canonical refs, packages kept, errors). -/
def softwarePkgStep (teamFile : String) (ref : SoftwareRefInput)
    (st : List String × List ParsedSoftwarePackage × List ParseError)
    (pkgrel : ParsedSoftwarePackage × Option String) :
    List String × List ParsedSoftwarePackage × List ParseError :=
  if canonicalSoftwareRef ref.refPath pkgrel.2 ≠ "" then
    if canonicalSoftwareRef ref.refPath pkgrel.2 ∈ st.1 then
      (st.1, st.2.1, st.2.2 ++
        [⟨teamFile, "duplicate software package reference: " ++
          goQuote (canonicalSoftwareRef ref.refPath pkgrel.2)⟩])
    else (st.1 ++ [canonicalSoftwareRef ref.refPath pkgrel.2],
      st.2.1 ++ [{ pkgrel.1 with
        refPath := canonicalSoftwareRef ref.refPath pkgrel.2,
        selfService := ref.selfServiceOverride.getD pkgrel.1.selfService }], st.2.2)
  else (st.1, st.2.1 ++ [{ pkgrel.1 with
    refPath := canonicalSoftwareRef ref.refPath pkgrel.2,
    selfService := ref.selfServiceOverride.getD pkgrel.1.selfService }], st.2.2)

/-- Model of the software-reference loop of parseTeamFile: per reference,
append its resolution errors, then process each resolved package through
the dedup guard. -/
def parseTeamSoftware (teamFile : String) (refs : List SoftwareRefInput) :
    List ParsedSoftwarePackage × List ParseError :=
  let st := refs.foldl (fun st ref =>
    ref.resolved.foldl (softwarePkgStep teamFile ref) (st.1, st.2.1, st.2.2 ++ ref.errs))
    ([], [], [])
  (st.2.1, st.2.2)

/-- Model of the policy-reference assembly of parseTeamFile, taking each
reference resolution outcome as input: results are concatenated with no
duplicate-name guard. -/
def parseTeamPolicies (resolved : List (List ParsedPolicy × List ParseError)) :
    List ParsedPolicy × List ParseError :=
  resolved.foldl (fun acc r => (acc.1 ++ r.1, acc.2 ++ r.2)) ([], [])

/-! ## Parser: profile identity extraction (parser.go lines 647-717) -/

/-- Display-name marker scanned by extractMobileconfigName. -/
def needlePDN : List Char := "<key>PayloadDisplayName</key>".data

/-- Opening tag of a plist string value. -/
def openStringTag : List Char := "<string>".data

/-- Closing tag of a plist string value. -/
def closeStringTag : List Char := "</string>".data

/-- Model of maxProfileSize in parser.go. -/
def maxProfileSize : Nat := 10485760

/-- Value extraction after one marker occurrence (the body of the scan loop
in extractMobileconfigName): trim, require the string opening tag, cut at
the closing tag, trim the value.  none means the occurrence updates
nothing. -/
def extractValueAt (afterRaw : List Char) : Option (List Char) :=
  let after := goTrimList afterRaw
  if openStringTag.isPrefixOf after then
    let a2 := after.drop openStringTag.length
    match subIndex closeStringTag a2 with
    | some e => some (goTrimList (a2.take e))
    | none => none
  else none

theorem subIndex_some_le {needle hay : List Char} {idx : Nat}
    (h : subIndex needle hay = some idx) : idx + needle.length ≤ hay.length := by
  induction hay generalizing idx with
  | nil =>
    by_cases hn : needle.isEmpty <;> simp [subIndex, hn] at h
    subst h
    simp [List.isEmpty_iff.1 hn]
  | cons c rest ih =>
    by_cases hp : needle.isPrefixOf (c :: rest)
    · simp [subIndex, hp] at h
      subst h
      simpa using List.IsPrefix.length_le ((List.isPrefixOf_iff_prefix).1 hp)
    · simp [subIndex, hp] at h
      obtain ⟨j, hj, rfl⟩ := h
      have := ih hj
      simp
      omega

/-- Model of the scan loop of extractMobileconfigName: find each marker
occurrence in turn, keep the value of the latest occurrence that yields
one.  The explicit fuel argument stands for the termination measure; each
iteration drops at least the marker length from the remainder, so a fuel
of one more than the remaining length never runs out. -/
def extractLoopFuel : Nat → List Char → String → String
  | 0, _, last => last
  | fuel + 1, rem, last =>
    match subIndex needlePDN rem with
    | none => last
    | some idx =>
      extractLoopFuel fuel (rem.drop (idx + needlePDN.length))
        (match extractValueAt (rem.drop (idx + needlePDN.length)) with
         | some v => String.mk v
         | none => last)

/-- Model of extractMobileconfigName in parser.go. -/
def extractMobileconfigName (data : List Char) : String :=
  extractLoopFuel (data.length + 1) data ""

/-- Values of every marker occurrence that yields one, in scan order; this
is the parallel collector used to characterize the scan loop. -/
def pdnValuesFuel : Nat → List Char → List String
  | 0, _ => []
  | fuel + 1, rem =>
    match subIndex needlePDN rem with
    | none => []
    | some idx =>
      (match extractValueAt (rem.drop (idx + needlePDN.length)) with
       | some v => [String.mk v]
       | none => []) ++ pdnValuesFuel fuel (rem.drop (idx + needlePDN.length))

/-- Values of every marker occurrence that yields one, over a whole
document. -/
def pdnValues (data : List Char) : List String :=
  pdnValuesFuel (data.length + 1) data

/-- Model of extractProfileName in parser.go: only .mobileconfig files are
scanned; a stat or read failure or an oversized file yields the empty name.
The content oracle stands for os.Stat plus os.ReadFile. -/
def extractProfileName (filePath : String) (content : Option String) : String :=
  if ".mobileconfig".data.isSuffixOf (goToLower filePath).data then
    match content with
    | none => ""
    | some d => if d.length > maxProfileSize then "" else extractMobileconfigName d.data
  else ""

/-- Model of strings.TrimSuffix. -/
def goTrimSuffix (s suffix : String) : String :=
  if suffix.data.isSuffixOf s.data then ⟨s.data.take (s.data.length - suffix.data.length)⟩
  else s

/-- Model of filepath.Base on the slash paths used here: the last nonempty
component, or dot for an empty path. -/
def goBase (filePath : String) : String :=
  match (((splitOnChar '/' filePath.data).map String.mk).filter (fun s => s ≠ "")).getLast? with
  | some b => b
  | none => "."

/-- Model of profileNameFromFilename in parser.go. -/
def profileNameFromFilename (filePath : String) : String :=
  let name := goBase filePath
  let name := goTrimSuffix name ".mobileconfig"
  let name := goTrimSuffix name ".json"
  goTrimSuffix name ".xml"

/-- Profile identity as computed by parseTeamFile (lines 396-399): the
content-extracted name, with the filename fallback when it is empty. -/
def profileIdentity (filePath : String) (content : Option String) : String :=
  let name := extractProfileName filePath content
  if name = "" then profileNameFromFilename filePath else name

/-- Index of the last occurrence of a needle in a list (spec-side notion of
the last textual occurrence of the marker). -/
def lastOccIndex (needle hay : List Char) : Option Nat :=
  (((List.range (hay.length + 1)).filter
    (fun i => needle.isPrefixOf (hay.drop i)))).getLast?

/-- Modelled from the spec: the string value following the last textual
occurrence of the display-name marker, if that occurrence is followed by
one. -/
def specLastOccurrenceValue (data : List Char) : Option (List Char) :=
  match lastOccIndex needlePDN data with
  | none => none
  | some idx => extractValueAt (data.drop (idx + needlePDN.length))

/-- Modelled from the spec of profile identity derivation: for a
plist-style declarative config the identity is the string value following
the last textual occurrence of the display-name marker; for every other
format, and whenever content extraction fails for any reason, the identity
is the filename with its extension stripped. -/
def specProfileIdentity (filePath : String) (content : Option String) : String :=
  if ".mobileconfig".data.isSuffixOf (goToLower filePath).data then
    match content with
    | none => profileNameFromFilename filePath
    | some d =>
      if d.length > maxProfileSize then profileNameFromFilename filePath
      else
        match specLastOccurrenceValue d.data with
        | some v => String.mk v
        | none => profileNameFromFilename filePath
  else profileNameFromFilename filePath

/-- Names of the entries of a bucket (the identity keys of its entries). -/
def namesOf (l : List ResourceChange) : List String :=
  l.map (fun c => c.name)

/-! ## General lemmas -/

theorem charListLt_asymm {a b : List Char} (h : charListLt a b = true) :
    charListLt b a = false := by
  induction a generalizing b with
  | nil =>
    cases b with
    | nil => simp [charListLt] at h
    | cons y ys => simp [charListLt]
  | cons x xs ih =>
    cases b with
    | nil => simp [charListLt] at h
    | cons y ys =>
      by_cases h1 : x.toNat < y.toNat
      · have h2 : ¬ y.toNat < x.toNat := by omega
        simp only [charListLt, if_neg h2, if_pos h1]
      · by_cases h2 : y.toNat < x.toNat
        · simp only [charListLt, if_neg h1, if_pos h2] at h
          cases h
        · simp only [charListLt, if_neg h1, if_neg h2] at *
          exact ih h

theorem charListLt_neg_trans {a b c : List Char} (hab : charListLt a b = false)
    (hbc : charListLt b c = false) : charListLt a c = false := by
  induction a generalizing b c with
  | nil =>
    cases c with
    | nil => simp [charListLt]
    | cons z zs =>
      cases b with
      | nil => simpa [charListLt] using hbc
      | cons y ys => simp [charListLt] at hab
  | cons x xs ih =>
    cases c with
    | nil => simp [charListLt]
    | cons z zs =>
      cases b with
      | nil => simp [charListLt] at hbc
      | cons y ys =>
        have hxy : ¬ x.toNat < y.toNat := by
          intro hlt
          simp [charListLt, hlt] at hab
        have hyz : ¬ y.toNat < z.toNat := by
          intro hlt
          simp [charListLt, hlt] at hbc
        by_cases h1 : x.toNat < z.toNat
        · omega
        · by_cases h2 : z.toNat < x.toNat
          · simp [charListLt, h1, h2]
          · have hx_eq_y : ¬ y.toNat < x.toNat := by omega
            have hy_eq_z : ¬ z.toNat < y.toNat := by omega
            simp only [charListLt, if_neg hxy, if_neg hx_eq_y] at hab
            simp only [charListLt, if_neg hyz, if_neg hy_eq_z] at hbc
            simp only [charListLt, if_neg h1, if_neg h2]
            exact ih hab hbc

theorem mem_insertByName {x y : ResourceChange} {l : List ResourceChange} :
    y ∈ insertByName x l ↔ y = x ∨ y ∈ l := by
  induction l with
  | nil => simp [insertByName]
  | cons z zs ih =>
    by_cases h : charListLt z.name.data x.name.data
    · rw [insertByName, if_pos h]
      simp [ih]
      tauto
    · rw [insertByName, if_neg h]
      simp

theorem mem_sortByName {y : ResourceChange} {l : List ResourceChange} :
    y ∈ sortByName l ↔ y ∈ l := by
  induction l with
  | nil => simp [sortByName]
  | cons z zs ih => simp [sortByName, mem_insertByName, ih]

theorem pairwise_insertByName {x : ResourceChange} {l : List ResourceChange}
    (h : l.Pairwise (fun a b => charListLt b.name.data a.name.data = false)) :
    (insertByName x l).Pairwise (fun a b => charListLt b.name.data a.name.data = false) := by
  induction l with
  | nil => simp [insertByName]
  | cons z zs ih =>
    rcases List.pairwise_cons.1 h with ⟨hz, hzs⟩
    by_cases hzx : charListLt z.name.data x.name.data
    · rw [insertByName, if_pos hzx]
      refine List.pairwise_cons.2 ⟨?_, ih hzs⟩
      intro b hb
      rcases mem_insertByName.1 hb with rfl | hb
      · exact charListLt_asymm hzx
      · exact hz b hb
    · rw [insertByName, if_neg hzx]
      refine List.pairwise_cons.2 ⟨?_, h⟩
      intro b hb
      rcases List.mem_cons.1 hb with rfl | hb
      · exact Bool.not_eq_true _ ▸ Bool.of_not_eq_true hzx
      · exact charListLt_neg_trans (hz b hb) (Bool.of_not_eq_true hzx)

theorem pairwise_sortByName (l : List ResourceChange) :
    (sortByName l).Pairwise (fun a b => charListLt b.name.data a.name.data = false) := by
  induction l with
  | nil => simp [sortByName]
  | cons z zs ih => exact pairwise_insertByName ih

theorem sorted_diffSoftware (cs : TeamSoftware) (ps : ParsedSoftware) :
    (diffSoftware cs ps).added.Pairwise
      (fun a b => charListLt b.name.data a.name.data = false) ∧
    (diffSoftware cs ps).modified.Pairwise
      (fun a b => charListLt b.name.data a.name.data = false) ∧
    (diffSoftware cs ps).deleted.Pairwise
      (fun a b => charListLt b.name.data a.name.data = false) :=
  ⟨pairwise_sortByName _, pairwise_sortByName _, pairwise_sortByName _⟩

theorem filterMap_name_sublist {α : Type} (f : α → Option ResourceChange)
    (key : α → String) (l : List α)
    (hf : ∀ a e, f a = some e → e.name = key a) :
    List.Sublist ((l.filterMap f).map (fun e => e.name)) (l.map key) := by
  induction l with
  | nil => simp
  | cons a rest ih =>
    cases hfa : f a with
    | none =>
      rw [List.filterMap_cons, hfa, List.map_cons]
      exact ih.trans (List.sublist_cons_self _ _)
    | some e =>
      rw [List.filterMap_cons, hfa, List.map_cons, List.map_cons, hf a e hfa]
      exact ih.cons₂ _

/-! ## C10: the profile diff never produces a Modified entry -/

theorem foldl_profileStep_seen (current : List ApiProfile)
    (proposed : List ParsedProfile)
    (st : List String × List ResourceChange × List String) :
    (proposed.foldl (profileStep current) st).1
      = st.1 ++ proposed.map (fun p => p.name) := by
  induction proposed generalizing st with
  | nil => simp
  | cons p rest ih => simp [ih, profileStep]

theorem foldl_profileStep_added (current : List ApiProfile)
    (proposed : List ParsedProfile)
    (st : List String × List ResourceChange × List String) :
    ∀ e ∈ (proposed.foldl (profileStep current) st).2.1,
      e ∈ st.2.1 ∨ goMapGet ApiProfile.name current e.name = none := by
  induction proposed generalizing st with
  | nil => exact fun e he => Or.inl he
  | cons p rest ih =>
    intro e he
    rcases ih (profileStep current st p) e he with hmem | hnone
    · by_cases hp : (goMapGet ApiProfile.name current p.name).isSome
      · rw [profileStep] at hmem
        simp only [if_pos hp] at hmem
        exact Or.inl hmem
      · rw [profileStep] at hmem
        simp only [if_neg hp] at hmem
        rcases List.mem_append.1 hmem with hmem | hone
        · exact Or.inl hmem
        · right
          simp at hone
          rw [hone]
          simpa using Option.not_isSome_iff_eq_none.1 hp
    · exact Or.inr hnone

/-- C10: for every pair of current and proposed profile lists, the profile
diff has an empty Modified bucket; moreover a profile whose content-derived
name appears on both sides produces no entry at all (neither Added nor
Deleted), so profiles are only ever reported as Added or Deleted. -/
theorem c10_profiles_never_modified (current : List ApiProfile)
    (proposed : List ParsedProfile) :
    (diffProfiles current proposed).1.modified = [] ∧
    (∀ p ∈ proposed, (∃ c ∈ current, c.name = p.name) →
      p.name ∉ namesOf (diffProfiles current proposed).1.added ∧
      p.name ∉ namesOf (diffProfiles current proposed).1.deleted) := by
  constructor
  · rfl
  · intro p hp hex
    obtain ⟨c, hc, hcname⟩ := hex
    constructor
    · intro hmem
      simp only [diffProfiles, namesOf, List.mem_map] at hmem
      obtain ⟨e, he, hename⟩ := hmem
      rcases foldl_profileStep_added current proposed ([], [], []) e he with h | h
      · simp at h
      · rw [hename] at h
        exact ((goMapGet_eq_none _ _ _).1 h) c hc hcname
    · intro hmem
      simp only [diffProfiles, namesOf, List.mem_map, List.mem_filterMap] at hmem
      obtain ⟨e, ⟨cur, hcur, hcond⟩, hename⟩ := hmem
      by_cases hin : cur.name ∈ (proposed.foldl (profileStep current) ([], [], [])).1
      · rw [if_pos hin] at hcond
        cases hcond
      · rw [if_neg hin] at hcond
        cases hcond
        apply hin
        rw [foldl_profileStep_seen]
        simp at hename
        simp only [List.nil_append, List.mem_map]
        exact ⟨p, hp, hename.symm⟩

/-- Witness for C10: a profile present on both sides, with a different
platform, produces no entry in any bucket. -/
theorem c10_witness :
    (diffProfiles [ApiProfile.mk "P" "darwin"]
      [ParsedProfile.mk "a.mobileconfig" "P" "windows"]).1.modified = [] ∧
    "P" ∉ namesOf (diffProfiles [ApiProfile.mk "P" "darwin"]
      [ParsedProfile.mk "a.mobileconfig" "P" "windows"]).1.added ∧
    "P" ∉ namesOf (diffProfiles [ApiProfile.mk "P" "darwin"]
      [ParsedProfile.mk "a.mobileconfig" "P" "windows"]).1.deleted := by
  have h := c10_profiles_never_modified [ApiProfile.mk "P" "darwin"]
    [ParsedProfile.mk "a.mobileconfig" "P" "windows"]
  have h2 := h.2 (ParsedProfile.mk "a.mobileconfig" "P" "windows") (by simp)
    ⟨ApiProfile.mk "P" "darwin", by simp, rfl⟩
  exact ⟨h.1, h2.1, h2.2⟩

/-! ## C3: bucket ordering -/

theorem foldl_profileStep_added_names (current : List ApiProfile)
    (proposed : List ParsedProfile)
    (st : List String × List ResourceChange × List String) :
    ∃ t, (proposed.foldl (profileStep current) st).2.1 = st.2.1 ++ t ∧
      List.Sublist (namesOf t) (proposed.map (fun p => p.name)) := by
  induction proposed generalizing st with
  | nil => exact ⟨[], by simp, by simp [namesOf]⟩
  | cons p rest ih =>
    obtain ⟨t, ht, hsub⟩ := ih (profileStep current st p)
    by_cases hp : (goMapGet ApiProfile.name current p.name).isSome
    · refine ⟨t, ?_, ?_⟩
      · rw [List.foldl_cons, ht, profileStep, if_pos hp]
      · exact hsub.trans (List.sublist_cons_self _ _)
    · refine ⟨⟨p.name, profileAddedFields p, 0, ""⟩ :: t, ?_, ?_⟩
      · rw [List.foldl_cons, ht, profileStep, if_neg hp]
        simp
      · simpa [namesOf] using hsub.cons₂ p.name

/-- C3 counterexample: the policy Added bucket is returned in input order,
not sorted by identity key — two new policies declared as b then a come
back as b then a, which is not ascending. -/
theorem c3_counterexample :
    namesOf (diffPolicies []
      [ParsedPolicy.mk "b" "" "" "q" "" false [] [],
       ParsedPolicy.mk "a" "" "" "q" "" false [] []]).added = ["b", "a"] ∧
    ¬ (diffPolicies []
      [ParsedPolicy.mk "b" "" "" "q" "" false [] [],
       ParsedPolicy.mk "a" "" "" "q" "" false [] []]).added.Pairwise
        (fun a b => charListLt b.name.data a.name.data = false) := by
  constructor
  · rfl
  · intro hpw
    have h := List.rel_of_pairwise_cons
      (by exact hpw) (List.mem_singleton.2 rfl)
    simp [charListLt] at h

/-- C3 (amended): only the software diff buckets pass through an explicit
sort stage (ascending by identity key); the policy, query and profile
buckets preserve the input declaration order — their key sequences are
order-preserving subsequences of the corresponding input key sequences. -/
theorem c3_sorted_software_only :
    (∀ (cs : TeamSoftware) (ps : ParsedSoftware),
      (diffSoftware cs ps).added.Pairwise
        (fun a b => charListLt b.name.data a.name.data = false) ∧
      (diffSoftware cs ps).modified.Pairwise
        (fun a b => charListLt b.name.data a.name.data = false) ∧
      (diffSoftware cs ps).deleted.Pairwise
        (fun a b => charListLt b.name.data a.name.data = false)) ∧
    (∀ (current : List ApiPolicy) (proposed : List ParsedPolicy),
      List.Sublist (namesOf (diffPolicies current proposed).added)
        (proposed.map (fun p => p.name)) ∧
      List.Sublist (namesOf (diffPolicies current proposed).modified)
        (proposed.map (fun p => p.name)) ∧
      List.Sublist (namesOf (diffPolicies current proposed).deleted)
        (current.map (fun c => c.name))) ∧
    (∀ (current : List ApiQuery) (proposed : List ParsedQuery),
      List.Sublist (namesOf (diffQueries current proposed).added)
        (proposed.map (fun q => q.name)) ∧
      List.Sublist (namesOf (diffQueries current proposed).modified)
        (proposed.map (fun q => q.name)) ∧
      List.Sublist (namesOf (diffQueries current proposed).deleted)
        (current.map (fun c => c.name))) ∧
    (∀ (current : List ApiProfile) (proposed : List ParsedProfile),
      List.Sublist (namesOf (diffProfiles current proposed).1.added)
        (proposed.map (fun p => p.name)) ∧
      List.Sublist (namesOf (diffProfiles current proposed).1.deleted)
        (current.map (fun c => c.name))) := by
  refine ⟨fun cs ps => sorted_diffSoftware cs ps, fun current proposed => ⟨?_, ?_, ?_⟩,
    fun current proposed => ⟨?_, ?_, ?_⟩, fun current proposed => ⟨?_, ?_⟩⟩
  · refine filterMap_name_sublist _ _ _ ?_
    intro a e h
    cases hg : goMapGet ApiPolicy.name current a.name <;> simp [hg] at h <;>
      simp [← h]
  · refine filterMap_name_sublist _ _ _ ?_
    intro a e h
    cases hg : goMapGet ApiPolicy.name current a.name <;> simp [hg] at h
    rw [← h.2]
  · refine filterMap_name_sublist _ _ _ ?_
    intro a e h
    split at h
    · cases h
    · cases h
      rfl
  · refine filterMap_name_sublist _ _ _ ?_
    intro a e h
    cases hg : goMapGet ApiQuery.name current a.name <;> simp [hg] at h <;>
      simp [← h]
  · refine filterMap_name_sublist _ _ _ ?_
    intro a e h
    cases hg : goMapGet ApiQuery.name current a.name <;> simp [hg] at h
    rw [← h.2]
  · refine filterMap_name_sublist _ _ _ ?_
    intro a e h
    split at h
    · cases h
    · cases h
      rfl
  · obtain ⟨t, ht, hsub⟩ :=
      foldl_profileStep_added_names current proposed ([], [], [])
    simpa [diffProfiles, ht] using hsub
  · refine filterMap_name_sublist _ _ _ ?_
    intro a e h
    split at h
    · cases h
    · cases h
      rfl

/-! ## C1: partition law for the hash-join -/

theorem diffPolicies_added_names (current : List ApiPolicy)
    (proposed : List ParsedPolicy) (n : String) :
    n ∈ namesOf (diffPolicies current proposed).added ↔
      ((∃ p ∈ proposed, p.name = n) ∧ ∀ c ∈ current, c.name ≠ n) := by
  simp only [diffPolicies, namesOf, List.mem_map, List.mem_filterMap]
  constructor
  · rintro ⟨e, ⟨p, hp, hfe⟩, hen⟩
    cases hg : goMapGet ApiPolicy.name current p.name with
    | none =>
      rw [hg] at hfe
      cases hfe
      simp only at hen
      subst hen
      exact ⟨⟨p, hp, rfl⟩, fun c hc => (goMapGet_eq_none _ _ _).1 hg c hc⟩
    | some cur =>
      rw [hg] at hfe
      cases hfe
  · rintro ⟨⟨p, hp, hpn⟩, hcur⟩
    subst hpn
    have hg : goMapGet ApiPolicy.name current p.name = none :=
      (goMapGet_eq_none _ _ _).2 hcur
    exact ⟨⟨p.name, mkAddedPolicyFields p, 0, ""⟩, ⟨p, hp, by rw [hg]⟩, rfl⟩

theorem diffPolicies_deleted_names (current : List ApiPolicy)
    (proposed : List ParsedPolicy) (n : String) :
    n ∈ namesOf (diffPolicies current proposed).deleted ↔
      ((∃ c ∈ current, c.name = n) ∧ ∀ p ∈ proposed, p.name ≠ n) := by
  simp only [diffPolicies, namesOf, List.mem_map, List.mem_filterMap]
  constructor
  · rintro ⟨e, ⟨c, hc, hfe⟩, hen⟩
    by_cases hyp : proposed.any (fun p => p.name == c.name)
    · rw [if_pos hyp] at hfe
      cases hfe
    · rw [if_neg hyp] at hfe
      cases hfe
      simp only at hen
      subst hen
      refine ⟨⟨c, hc, rfl⟩, fun p hp => ?_⟩
      intro hpn
      exact hyp (List.any_eq_true.2 ⟨p, hp, by simp [hpn]⟩)
  · rintro ⟨⟨c, hc, hcn⟩, hprop⟩
    subst hcn
    have hyp : ¬ proposed.any (fun p => p.name == c.name) := by
      intro hyp
      obtain ⟨p, hp, hpn⟩ := List.any_eq_true.1 hyp
      exact hprop p hp (by simpa using hpn)
    refine ⟨⟨c.name, [], c.passingHostCount + c.failingHostCount, _⟩,
      ⟨c, hc, by rw [if_neg hyp]⟩, rfl⟩

theorem diffPolicies_modified_names (current : List ApiPolicy)
    (proposed : List ParsedPolicy) (n : String)
    (h : n ∈ namesOf (diffPolicies current proposed).modified) :
    (∃ p ∈ proposed, p.name = n) ∧ (∃ c ∈ current, c.name = n) := by
  simp only [diffPolicies, namesOf, List.mem_map, List.mem_filterMap] at h
  obtain ⟨e, ⟨p, hp, hfe⟩, hen⟩ := h
  cases hg : goMapGet ApiPolicy.name current p.name with
  | none =>
    rw [hg] at hfe
    cases hfe
  | some cur =>
    rw [hg] at hfe
    by_cases hf : policyFields cur p = []
    · simp [hf] at hfe
    · simp [hf] at hfe
      subst hfe
      simp only at hen
      subst hen
      obtain ⟨hcur, hname⟩ := goMapGet_eq_some_mem hg
      exact ⟨⟨p, hp, rfl⟩, ⟨cur, hcur, hname⟩⟩

theorem diffQueries_added_names (current : List ApiQuery)
    (proposed : List ParsedQuery) (n : String) :
    n ∈ namesOf (diffQueries current proposed).added ↔
      ((∃ q ∈ proposed, q.name = n) ∧ ∀ c ∈ current, c.name ≠ n) := by
  simp only [diffQueries, namesOf, List.mem_map, List.mem_filterMap]
  constructor
  · rintro ⟨e, ⟨q, hq, hfe⟩, hen⟩
    cases hg : goMapGet ApiQuery.name current q.name with
    | none =>
      rw [hg] at hfe
      cases hfe
      simp only at hen
      subst hen
      exact ⟨⟨q, hq, rfl⟩, fun c hc => (goMapGet_eq_none _ _ _).1 hg c hc⟩
    | some cur =>
      rw [hg] at hfe
      cases hfe
  · rintro ⟨⟨q, hq, hqn⟩, hcur⟩
    subst hqn
    have hg : goMapGet ApiQuery.name current q.name = none :=
      (goMapGet_eq_none _ _ _).2 hcur
    exact ⟨⟨q.name, mkAddedQueryFields q, 0, ""⟩, ⟨q, hq, by rw [hg]⟩, rfl⟩

theorem diffQueries_deleted_names (current : List ApiQuery)
    (proposed : List ParsedQuery) (n : String) :
    n ∈ namesOf (diffQueries current proposed).deleted ↔
      ((∃ c ∈ current, c.name = n) ∧ ∀ q ∈ proposed, q.name ≠ n) := by
  simp only [diffQueries, namesOf, List.mem_map, List.mem_filterMap]
  constructor
  · rintro ⟨e, ⟨c, hc, hfe⟩, hen⟩
    by_cases hyp : proposed.any (fun q => q.name == c.name)
    · rw [if_pos hyp] at hfe
      cases hfe
    · rw [if_neg hyp] at hfe
      cases hfe
      simp only at hen
      subst hen
      refine ⟨⟨c, hc, rfl⟩, fun q hq => ?_⟩
      intro hqn
      exact hyp (List.any_eq_true.2 ⟨q, hq, by simp [hqn]⟩)
  · rintro ⟨⟨c, hc, hcn⟩, hprop⟩
    subst hcn
    have hyp : ¬ proposed.any (fun q => q.name == c.name) := by
      intro hyp
      obtain ⟨q, hq, hqn⟩ := List.any_eq_true.1 hyp
      exact hprop q hq (by simpa using hqn)
    exact ⟨⟨c.name, [], 0, ""⟩, ⟨c, hc, by rw [if_neg hyp]⟩, rfl⟩

theorem diffQueries_modified_names (current : List ApiQuery)
    (proposed : List ParsedQuery) (n : String)
    (h : n ∈ namesOf (diffQueries current proposed).modified) :
    (∃ q ∈ proposed, q.name = n) ∧ (∃ c ∈ current, c.name = n) := by
  simp only [diffQueries, namesOf, List.mem_map, List.mem_filterMap] at h
  obtain ⟨e, ⟨q, hq, hfe⟩, hen⟩ := h
  cases hg : goMapGet ApiQuery.name current q.name with
  | none =>
    rw [hg] at hfe
    cases hfe
  | some cur =>
    rw [hg] at hfe
    by_cases hf : queryFields cur q = []
    · simp [hf] at hfe
    · simp [hf] at hfe
      subst hfe
      simp only at hen
      subst hen
      obtain ⟨hcur, hname⟩ := goMapGet_eq_some_mem hg
      exact ⟨⟨q, hq, rfl⟩, ⟨cur, hcur, hname⟩⟩

/-- C1 (amended): for policy and query collections, the three bucket key
sets are pairwise disjoint; Added keys are exactly proposed-minus-remote,
Deleted keys exactly remote-minus-proposed (so Added together with Deleted
is exactly the symmetric difference of the two key sets), and Modified keys
lie in the intersection — the union of the three therefore contains the
symmetric difference but, when a matched pair differs, also a key of the
intersection, and never more than the union of both key sets. -/
theorem c1_partition :
    (∀ (current : List ApiPolicy) (proposed : List ParsedPolicy) (n : String),
      (n ∈ namesOf (diffPolicies current proposed).added ↔
        ((∃ p ∈ proposed, p.name = n) ∧ ¬ ∃ c ∈ current, c.name = n)) ∧
      (n ∈ namesOf (diffPolicies current proposed).deleted ↔
        ((∃ c ∈ current, c.name = n) ∧ ¬ ∃ p ∈ proposed, p.name = n)) ∧
      (n ∈ namesOf (diffPolicies current proposed).modified →
        ((∃ p ∈ proposed, p.name = n) ∧ ∃ c ∈ current, c.name = n)) ∧
      ¬ (n ∈ namesOf (diffPolicies current proposed).added ∧
         n ∈ namesOf (diffPolicies current proposed).modified) ∧
      ¬ (n ∈ namesOf (diffPolicies current proposed).added ∧
         n ∈ namesOf (diffPolicies current proposed).deleted) ∧
      ¬ (n ∈ namesOf (diffPolicies current proposed).modified ∧
         n ∈ namesOf (diffPolicies current proposed).deleted)) ∧
    (∀ (current : List ApiQuery) (proposed : List ParsedQuery) (n : String),
      (n ∈ namesOf (diffQueries current proposed).added ↔
        ((∃ q ∈ proposed, q.name = n) ∧ ¬ ∃ c ∈ current, c.name = n)) ∧
      (n ∈ namesOf (diffQueries current proposed).deleted ↔
        ((∃ c ∈ current, c.name = n) ∧ ¬ ∃ q ∈ proposed, q.name = n)) ∧
      (n ∈ namesOf (diffQueries current proposed).modified →
        ((∃ q ∈ proposed, q.name = n) ∧ ∃ c ∈ current, c.name = n)) ∧
      ¬ (n ∈ namesOf (diffQueries current proposed).added ∧
         n ∈ namesOf (diffQueries current proposed).modified) ∧
      ¬ (n ∈ namesOf (diffQueries current proposed).added ∧
         n ∈ namesOf (diffQueries current proposed).deleted) ∧
      ¬ (n ∈ namesOf (diffQueries current proposed).modified ∧
         n ∈ namesOf (diffQueries current proposed).deleted)) := by
  constructor
  · intro current proposed n
    have ha := diffPolicies_added_names current proposed n
    have hd := diffPolicies_deleted_names current proposed n
    have hm := diffPolicies_modified_names current proposed n
    refine ⟨?_, ?_, hm, ?_, ?_, ?_⟩
    · rw [ha]
      constructor
      · rintro ⟨hp, hc⟩
        exact ⟨hp, fun ⟨c, hcm, hcn⟩ => hc c hcm hcn⟩
      · rintro ⟨hp, hc⟩
        exact ⟨hp, fun c hcm hcn => hc ⟨c, hcm, hcn⟩⟩
    · rw [hd]
      constructor
      · rintro ⟨hc, hp⟩
        exact ⟨hc, fun ⟨p, hpm, hpn⟩ => hp p hpm hpn⟩
      · rintro ⟨hc, hp⟩
        exact ⟨hc, fun p hpm hpn => hp ⟨p, hpm, hpn⟩⟩
    · rintro ⟨h1, h2⟩
      exact (ha.1 h1).2 _ ((hm h2).2.choose_spec.1 : _) (hm h2).2.choose_spec.2
    · rintro ⟨h1, h2⟩
      obtain ⟨c, hc, hcn⟩ := (hd.1 h2).1
      exact (ha.1 h1).2 c hc hcn
    · rintro ⟨h1, h2⟩
      obtain ⟨p, hp, hpn⟩ := (hm h1).1
      exact (hd.1 h2).2 p hp hpn
  · intro current proposed n
    have ha := diffQueries_added_names current proposed n
    have hd := diffQueries_deleted_names current proposed n
    have hm := diffQueries_modified_names current proposed n
    refine ⟨?_, ?_, hm, ?_, ?_, ?_⟩
    · rw [ha]
      constructor
      · rintro ⟨hp, hc⟩
        exact ⟨hp, fun ⟨c, hcm, hcn⟩ => hc c hcm hcn⟩
      · rintro ⟨hp, hc⟩
        exact ⟨hp, fun c hcm hcn => hc ⟨c, hcm, hcn⟩⟩
    · rw [hd]
      constructor
      · rintro ⟨hc, hp⟩
        exact ⟨hc, fun ⟨q, hqm, hqn⟩ => hp q hqm hqn⟩
      · rintro ⟨hc, hp⟩
        exact ⟨hc, fun q hqm hqn => hp ⟨q, hqm, hqn⟩⟩
    · rintro ⟨h1, h2⟩
      exact (ha.1 h1).2 _ ((hm h2).2.choose_spec.1 : _) (hm h2).2.choose_spec.2
    · rintro ⟨h1, h2⟩
      obtain ⟨c, hc, hcn⟩ := (hd.1 h2).1
      exact (ha.1 h1).2 c hc hcn
    · rintro ⟨h1, h2⟩
      obtain ⟨q, hq, hqn⟩ := (hm h1).1
      exact (hd.1 h2).2 q hq hqn

/-- C1 counterexample: a policy matched on both sides whose query text
differs lands in Modified, so the union of the three key sets contains a
key of the intersection of remote and proposed keys — it is not equal to
their symmetric difference (which is empty here). -/
theorem c1_counterexample :
    namesOf (diffPolicies [ApiPolicy.mk "A" "a" "" "" "" false 0 0]
      [ParsedPolicy.mk "A" "" "" "b" "" false [] []]).modified = ["A"] ∧
    namesOf (diffPolicies [ApiPolicy.mk "A" "a" "" "" "" false 0 0]
      [ParsedPolicy.mk "A" "" "" "b" "" false [] []]).added = [] ∧
    namesOf (diffPolicies [ApiPolicy.mk "A" "a" "" "" "" false 0 0]
      [ParsedPolicy.mk "A" "" "" "b" "" false [] []]).deleted = [] ∧
    [ApiPolicy.mk "A" "a" "" "" "" false 0 0].map ApiPolicy.name = ["A"] ∧
    [ParsedPolicy.mk "A" "" "" "b" "" false [] []].map ParsedPolicy.name = ["A"] := by
  refine ⟨rfl, rfl, rfl, rfl, rfl⟩

/-- Witness for C1: at a concrete modified pair, the Modified key is in
both input key sets. -/
theorem c1_witness :
    (∃ p ∈ [ParsedPolicy.mk "A" "" "" "b" "" false [] []], p.name = "A") ∧
    (∃ c ∈ [ApiPolicy.mk "A" "a" "" "" "" false 0 0], c.name = "A") := by
  exact (c1_partition.1 [ApiPolicy.mk "A" "a" "" "" "" false 0 0]
    [ParsedPolicy.mk "A" "" "" "b" "" false [] []] "A").2.2.1 (by decide)

/-! ## C9: placeholder values never appear in config changes -/

theorem mem_diffConfigSection {apiConfig : List (String × CVal)}
    {sectionName : String} {pm : Option (List (String × CVal))}
    {ch : ConfigChange} (h : ch ∈ diffConfigSection apiConfig sectionName pm) :
    ch.sectionName = sectionName ∧ containsEnvVar ch.new = false ∧
    ∃ m, pm = some m ∧ (ch.key, ch.new) ∈ flattenEntries m "" := by
  cases pm with
  | none => cases h
  | some m =>
    rw [diffConfigSection] at h
    split at h
    · simp only [List.mem_filterMap] at h
      obtain ⟨kv, hkv, hsome⟩ := h
      split_ifs at hsome with hdollar
      cases hsome
      exact ⟨rfl, Bool.of_not_eq_true hdollar, m, rfl, hkv⟩
    · simp only [List.mem_filterMap] at h
      obtain ⟨kv, hkv, hsome⟩ := h
      split_ifs at hsome with hdollar hneq
      cases hsome
      exact ⟨rfl, Bool.of_not_eq_true hdollar, m, rfl, hkv⟩

/-- C9: every emitted config change carries a marker-free proposed value
that is one of the flattened leaves of its own section; consequently a
proposed leaf whose flattened value contains the placeholder marker never
yields a change record for its key, whatever the remote value is. -/
theorem c9_placeholder_skip (apiConfig : List (String × CVal)) (g : ParsedGlobal) :
    (∀ ch ∈ diffConfig apiConfig g, containsEnvVar ch.new = false) ∧
    (∀ k : String,
      ((∀ m, g.orgSettings = some m →
          ∀ v, (k, v) ∈ flattenEntries m "" → containsEnvVar v = true) →
        (diffConfig apiConfig g).filter
          (fun ch => ch.sectionName == "org_settings" && ch.key == k) = []) ∧
      ((∀ m, g.agentOptions = some m →
          ∀ v, (k, v) ∈ flattenEntries m "" → containsEnvVar v = true) →
        (diffConfig apiConfig g).filter
          (fun ch => ch.sectionName == "agent_options" && ch.key == k) = []) ∧
      ((∀ m, g.controls = some m →
          ∀ v, (k, v) ∈ flattenEntries m "" → containsEnvVar v = true) →
        (diffConfig apiConfig g).filter
          (fun ch => ch.sectionName == "controls" && ch.key == k) = [])) := by
  have hmem : ∀ ch ∈ diffConfig apiConfig g,
      containsEnvVar ch.new = false ∧
      ((ch.sectionName = "org_settings" ∧
          ∃ m, g.orgSettings = some m ∧ (ch.key, ch.new) ∈ flattenEntries m "") ∨
       (ch.sectionName = "agent_options" ∧
          ∃ m, g.agentOptions = some m ∧ (ch.key, ch.new) ∈ flattenEntries m "") ∨
       (ch.sectionName = "controls" ∧
          ∃ m, g.controls = some m ∧ (ch.key, ch.new) ∈ flattenEntries m "")) := by
    intro ch h
    rw [diffConfig] at h
    rcases List.mem_append.1 h with h12 | h3
    · rcases List.mem_append.1 h12 with h1 | h2
      · obtain ⟨hs, hdollar, m, hm, hflat⟩ := mem_diffConfigSection h1
        exact ⟨hdollar, Or.inl ⟨hs, m, hm, hflat⟩⟩
      · obtain ⟨hs, hdollar, m, hm, hflat⟩ := mem_diffConfigSection h2
        exact ⟨hdollar, Or.inr (Or.inl ⟨hs, m, hm, hflat⟩)⟩
    · obtain ⟨hs, hdollar, m, hm, hflat⟩ := mem_diffConfigSection h3
      exact ⟨hdollar, Or.inr (Or.inr ⟨hs, m, hm, hflat⟩)⟩
  refine ⟨fun ch h => (hmem ch h).1, fun k => ⟨?_, ?_, ?_⟩⟩ <;>
  · intro hall
    rw [List.filter_eq_nil_iff]
    intro ch hch hpred
    simp only [Bool.and_eq_true, beq_iff_eq] at hpred
    obtain ⟨hdollar, hcases⟩ := hmem ch hch
    rcases hcases with ⟨hs, m, hm, hflat⟩ | ⟨hs, m, hm, hflat⟩ | ⟨hs, m, hm, hflat⟩ <;>
      rw [hpred.1] at hs <;>
      first
      | (exact absurd (hall m hm ch.new (hpred.2 ▸ hflat)) (by rw [hdollar]; simp))
      | simp at hs

/-- Witness for C9: a proposed org-settings leaf holding an environment
placeholder produces no change record for its key. -/
theorem c9_witness :
    (diffConfig [] (ParsedGlobal.mk
        (some [("secret", CVal.leaf "$TOKEN"), ("org_name", CVal.leaf "x")])
        none none [] [])).filter
      (fun ch => ch.sectionName == "org_settings" && ch.key == "secret") = [] := by
  refine ((c9_placeholder_skip []
    (ParsedGlobal.mk (some [("secret", CVal.leaf "$TOKEN"), ("org_name", CVal.leaf "x")])
      none none [] [])).2 "secret").1 ?_
  intro m hm v hv
  cases hm
  simp only [flattenEntries] at hv
  simp at hv
  rw [hv]
  decide

/-! ## C5: path containment -/

theorem foldl_pair_append {α β γ : Type} (f : α → List β) (g : α → List γ)
    (l : List α) (a : List β) (b : List γ) :
    l.foldl (fun acc x => (acc.1 ++ f x, acc.2 ++ g x)) (a, b)
      = (a ++ (l.map f).flatten, b ++ (l.map g).flatten) := by
  induction l generalizing a b with
  | nil => simp
  | cons x rest ih => simp [ih]

theorem resolvePolicyRefs_eq (eval : List String → Option (List String))
    (fs : List String → Option String)
    (parse : String → Option (List ParsedPolicy))
    (repoRoot baseDir : List String) (parentFile : String) (refs : List String) :
    resolvePolicyRefs eval fs parse repoRoot baseDir parentFile refs =
      (((refs.map (fun r =>
          (resolvePolicyRef eval fs parse repoRoot baseDir r parentFile).1)).flatten),
       ((refs.map (fun r =>
          (resolvePolicyRef eval fs parse repoRoot baseDir r parentFile).2)).flatten)) := by
  unfold resolvePolicyRefs
  rw [foldl_pair_append
    (fun r => (resolvePolicyRef eval fs parse repoRoot baseDir r parentFile).1)
    (fun r => (resolvePolicyRef eval fs parse repoRoot baseDir r parentFile).2)]
  simp

/-- C5: a reference whose resolved, symlink-evaluated path is not a
descendant of the repository root yields exactly one recorded path-escape
error with no parsed content, and in a list of references only that
reference is skipped — the contributions of the references before and
after it are unchanged. -/
theorem c5_path_escape (eval : List String → Option (List String))
    (fs : List String → Option String)
    (parse : String → Option (List ParsedPolicy))
    (repoRoot baseDir : List String) (refPath parentFile : String)
    (hne : refPath ≠ "")
    (hesc : (evalOr eval repoRoot).isPrefixOf
      (evalOr eval (joinPath baseDir refPath)) = false) :
    resolvePolicyRef eval fs parse repoRoot baseDir refPath parentFile =
      ([], [⟨parentFile, "path " ++ goQuote (renderPath (joinPath baseDir refPath)) ++
        " escapes repository root " ++ goQuote (renderPath repoRoot)⟩]) ∧
    ∀ pre post,
      resolvePolicyRefs eval fs parse repoRoot baseDir parentFile
          (pre ++ refPath :: post) =
        ((resolvePolicyRefs eval fs parse repoRoot baseDir parentFile pre).1 ++
          (resolvePolicyRefs eval fs parse repoRoot baseDir parentFile post).1,
         (resolvePolicyRefs eval fs parse repoRoot baseDir parentFile pre).2 ++
          [⟨parentFile, "path " ++ goQuote (renderPath (joinPath baseDir refPath)) ++
            " escapes repository root " ++ goQuote (renderPath repoRoot)⟩] ++
          (resolvePolicyRefs eval fs parse repoRoot baseDir parentFile post).2) := by
  have hsafe : safePath eval repoRoot (joinPath baseDir refPath) =
      some ("path " ++ goQuote (renderPath (joinPath baseDir refPath)) ++
        " escapes repository root " ++ goQuote (renderPath repoRoot)) := by
    simp [safePath, hesc]
  have h1 : resolvePolicyRef eval fs parse repoRoot baseDir refPath parentFile =
      ([], [⟨parentFile, "path " ++ goQuote (renderPath (joinPath baseDir refPath)) ++
        " escapes repository root " ++ goQuote (renderPath repoRoot)⟩]) := by
    simp only [resolvePolicyRef, readYAMLRef, if_neg hne, hsafe]
  refine ⟨h1, fun pre post => ?_⟩
  rw [resolvePolicyRefs_eq, resolvePolicyRefs_eq, resolvePolicyRefs_eq]
  simp [h1]

/-- Witness for C5: the reference ../../etc/passwd from inside the
repository resolves outside it and yields exactly the path-escape error. -/
theorem c5_witness :
    resolvePolicyRef (fun _ => none) (fun _ => some "x") (fun _ => some [])
      ["repo"] ["repo", "teams"] "../../etc/passwd" "/repo/teams/workstations.yml" =
      ([], [ParseError.mk "/repo/teams/workstations.yml"
        "path \"/etc/passwd\" escapes repository root \"/repo\""]) := by
  exact (c5_path_escape (fun _ => none) (fun _ => some "x") (fun _ => some [])
    ["repo"] ["repo", "teams"] "../../etc/passwd" "/repo/teams/workstations.yml"
    (by decide) (by decide)).1

/-! ## C8: null fleet-maintained list with impossible reconstruction -/

theorem keys_mapInsert {α : Type} (m : List (String × α)) (k : String) (v : α)
    (k2 : String) :
    k2 ∈ (mapInsert m k v).map Prod.fst ↔ (k2 = k ∨ k2 ∈ m.map Prod.fst) := by
  unfold mapInsert
  by_cases hc : m.any (fun kv => kv.1 == k)
  · rw [if_pos hc]
    obtain ⟨kv0, hkv0, hkv0k⟩ := List.any_eq_true.1 hc
    simp only [beq_iff_eq] at hkv0k
    simp only [List.map_map, List.mem_map, Function.comp]
    constructor
    · rintro ⟨kv, hkv, heq⟩
      by_cases h0 : kv.1 = k
      · rw [if_pos (by simpa using h0)] at heq
        exact Or.inl (by simpa using heq.symm)
      · rw [if_neg (by simpa using h0)] at heq
        exact Or.inr ⟨kv, hkv, heq⟩
    · rintro (rfl | ⟨kv, hkv, hkvn⟩)
      · exact ⟨kv0, hkv0, by rw [if_pos (by simpa using hkv0k)]⟩
      · by_cases h0 : kv.1 = k
        · exact ⟨kv0, hkv0, by rw [if_pos (by simpa using hkv0k)]; rw [← hkvn, h0]⟩
        · exact ⟨kv, hkv, by rw [if_neg (by simpa using h0)]; exact hkvn⟩
  · rw [if_neg hc]
    simp [or_comm]

theorem keys_goMapBuild_aux {α : Type} (key : α → String) (l : List α)
    (init : List (String × α)) (k : String) :
    k ∈ (l.foldl (fun m x => if key x = "" then m else mapInsert m (key x) x) init).map
        Prod.fst ↔
      (k ∈ init.map Prod.fst ∨ (k ≠ "" ∧ ∃ a ∈ l, key a = k)) := by
  induction l generalizing init with
  | nil => simp
  | cons a rest ih =>
    rw [List.foldl_cons]
    by_cases ha : key a = ""
    · rw [if_pos ha, ih]
      constructor
      · rintro (h | h)
        · exact Or.inl h
        · exact Or.inr ⟨h.1, h.2.choose, List.mem_cons_of_mem _ h.2.choose_spec.1,
            h.2.choose_spec.2⟩
      · rintro (h | ⟨hk, b, hb, hbk⟩)
        · exact Or.inl h
        · rcases List.mem_cons.1 hb with rfl | hb
          · exact absurd (ha.symm.trans hbk) hk.symm
          · exact Or.inr ⟨hk, b, hb, hbk⟩
    · rw [if_neg ha, ih]
      rw [keys_mapInsert]
      constructor
      · rintro ((rfl | h) | h)
        · exact Or.inr ⟨ha, a, List.mem_cons_self _ _, rfl⟩
        · exact Or.inl h
        · exact Or.inr ⟨h.1, h.2.choose, List.mem_cons_of_mem _ h.2.choose_spec.1,
            h.2.choose_spec.2⟩
      · rintro (h | ⟨hk, b, hb, hbk⟩)
        · exact Or.inl (Or.inr h)
        · rcases List.mem_cons.1 hb with rfl | hb
          · exact Or.inl (Or.inl hbk.symm)
          · exact Or.inr ⟨hk, b, hb, hbk⟩

theorem keys_goMapBuild {α : Type} (key : α → String) (l : List α) (k : String) :
    k ∈ (goMapBuild key l).map Prod.fst ↔ (k ≠ "" ∧ ∃ a ∈ l, key a = k) := by
  unfold goMapBuild
  rw [keys_goMapBuild_aux]
  simp

theorem namesOf_sortByName (l : List ResourceChange) (n : String) :
    n ∈ namesOf (sortByName l) ↔ n ∈ namesOf l := by
  simp only [namesOf, List.mem_map]
  constructor
  · rintro ⟨e, he, hn⟩
    exact ⟨e, mem_sortByName.1 he, hn⟩
  · rintro ⟨e, he, hn⟩
    exact ⟨e, mem_sortByName.2 he, hn⟩

theorem diffSoftwareFleet_added_names (proposed : List ParsedFleetApp)
    (a : ParsedFleetApp) (ha : a ∈ proposed) (hne : fleetAppKey a.slug ≠ "") :
    ("fleet app " ++ fleetAppKey a.slug) ∈ namesOf (diffSoftwareFleet none proposed).1 := by
  have hkey : fleetAppKey a.slug ∈
      (goMapBuild (fun x : ParsedFleetApp => fleetAppKey x.slug) proposed).map Prod.fst :=
    (keys_goMapBuild _ _ _).2 ⟨hne, a, ha, rfl⟩
  simp only [List.mem_map] at hkey
  obtain ⟨kv, hkv, hkvk⟩ := hkey
  simp only [diffSoftwareFleet, Option.getD_none, namesOf, List.mem_map,
    List.mem_filterMap]
  refine ⟨⟨"fleet app " ++ kv.1,
    [("slug", FieldDiff.mk "" kv.2.slug),
     ("self_service", FieldDiff.mk "" (goBool kv.2.selfService))], 0, ""⟩,
    ⟨kv, hkv, ?_⟩, by rw [hkvk]⟩
  have : assocGet (goMapBuild (fun x : TeamFleetApp => fleetAppKey x.slug) []) kv.1
      = none := rfl
  rw [this]

/-- C8: when the remote fleet-maintained list is null, the proposed side
declares at least one fleet-maintained app, and reconstruction is
impossible (in particular whenever there are no software titles or no
catalog, inference returns nil), each proposed app with a nonempty
normalized slug is reported as an Added software entry keyed by its slug,
and the team result carries no message beyond the profile warnings —
nothing error- or inference-related is produced. -/
theorem c8_null_fleet_apps (currentTeams : List ApiTeam) (labels : List ApiLabel)
    (catalog : List FleetMaintainedApp) (t : ParsedTeam) (currentTeam : ApiTeam)
    (h1 : goMapGet ApiTeam.name currentTeams t.name = some currentTeam)
    (h2 : currentTeam.software.fleetMaintained = none)
    (h3 : t.software.fleetMaintained ≠ [])
    (h4 : inferFleetMaintainedApps currentTeam catalog = none) :
    ((currentTeam.softwareTitles = [] ∨ catalog = []) →
      inferFleetMaintainedApps currentTeam catalog = none) ∧
    (∀ a ∈ t.software.fleetMaintained, fleetAppKey a.slug ≠ "" →
      ("fleet app " ++ fleetAppKey a.slug) ∈
        namesOf (diffTeam currentTeams labels catalog t).software.added) ∧
    (diffTeam currentTeams labels catalog t).errors =
      (diffProfiles currentTeam.profiles t.profiles).2 := by
  have hcond : currentTeam.software.fleetMaintained.isNone ∧
      t.software.fleetMaintained.length > 0 :=
    ⟨by rw [h2]; rfl, List.length_pos.2 h3⟩
  have hteam : diffTeam currentTeams labels catalog t =
      { team := t.name,
        policies := diffPolicies currentTeam.policies t.policies,
        queries := diffQueries currentTeam.queries t.queries,
        software := diffSoftware
          { currentTeam.software with
              fleetMaintained := inferFleetMaintainedApps currentTeam catalog }
          t.software,
        profiles := (diffProfiles currentTeam.profiles t.profiles).1,
        labels := validateLabels t labels
          (changedNames (diffPolicies currentTeam.policies t.policies)),
        config := [],
        errors := (diffProfiles currentTeam.profiles t.profiles).2 } := by
    rw [diffTeam, h1]
    simp only [if_pos hcond]
  refine ⟨?_, ?_, ?_⟩
  · intro hempty
    rw [inferFleetMaintainedApps]
    rcases hempty with h | h <;> rw [h] <;> simp
  · intro a ha hne
    rw [hteam]
    simp only []
    rw [h4, diffSoftware]
    simp only [sortResourceChanges]
    rw [namesOf_sortByName]
    have hmem := diffSoftwareFleet_added_names t.software.fleetMaintained a ha hne
    simp only [namesOf, List.mem_map] at hmem ⊢
    obtain ⟨e, he, hen⟩ := hmem
    exact ⟨e, by simp [he], hen⟩
  · rw [hteam]

/-- Witness for C8: the remote team reports a null fleet-maintained list,
there is no catalog, and the proposed slug zoom/darwin comes back as one
Added software entry with no error message. -/
theorem c8_witness :
    "fleet app zoom/darwin" ∈ namesOf (diffTeam
      [ApiTeam.mk "T" (TeamSoftware.mk [] none []) [] [] [] []] [] []
      (ParsedTeam.mk "T" [] []
        (ParsedSoftware.mk [] [ParsedFleetApp.mk "zoom/darwin" false] []) [])).software.added ∧
    (diffTeam [ApiTeam.mk "T" (TeamSoftware.mk [] none []) [] [] [] []] [] []
      (ParsedTeam.mk "T" [] []
        (ParsedSoftware.mk [] [ParsedFleetApp.mk "zoom/darwin" false] []) [])).errors = [] := by
  have h := c8_null_fleet_apps
    [ApiTeam.mk "T" (TeamSoftware.mk [] none []) [] [] [] []] [] []
    (ParsedTeam.mk "T" [] []
      (ParsedSoftware.mk [] [ParsedFleetApp.mk "zoom/darwin" false] []) [])
    (ApiTeam.mk "T" (TeamSoftware.mk [] none []) [] [] [] [])
    rfl rfl (by decide) rfl
  constructor
  · exact h.2.1 (ParsedFleetApp.mk "zoom/darwin" false) (by decide) (by decide)
  · exact h.2.2

/-! ## C4: whitespace normalization -/

/-- Whether the first character is regex whitespace. -/
def headWS : List Char → Bool
  | [] => false
  | c :: _ => goRegexWS c

/-- Whether the last character is regex whitespace. -/
def lastWS : List Char → Bool
  | [] => false
  | [c] => goRegexWS c
  | _ :: d :: r => lastWS (d :: r)

/-- An optional single space. -/
def optSp (b : Bool) : List Char :=
  if b then [' '] else []

theorem tokensWS_eq_nil (l : List Char) :
    tokensWS l = [] ↔ ∀ c ∈ l, goRegexWS c = true := by
  induction l with
  | nil => simp [tokensWS]
  | cons c r ih =>
    by_cases hc : goRegexWS c
    · simp [tokensWS, hc, ih]
    · simp only [tokensWS, if_neg hc]
      cases r with
      | nil => simp [hc]
      | cons d r2 =>
        by_cases hd : goRegexWS d
        · simp [hd, hc]
        · cases htr : tokensWS (d :: r2) <;> simp [hd, hc]

theorem lastWS_all_ws {l : List Char} (hall : ∀ c ∈ l, goRegexWS c = true)
    (hne : l ≠ []) : lastWS l = true := by
  induction l with
  | nil => exact absurd rfl hne
  | cons c r ih =>
    cases r with
    | nil => exact hall c (List.mem_singleton.2 rfl)
    | cons d r2 =>
      rw [show lastWS (c :: d :: r2) = lastWS (d :: r2) from rfl]
      exact ih (fun x hx => hall x (List.mem_cons_of_mem _ hx)) (by simp)

theorem normTok_cons {t : List Char} {ts : List (List Char)} (h : ts ≠ []) :
    normTok (t :: ts) = t ++ ' ' :: normTok ts := by
  cases ts with
  | nil => exact absurd rfl h
  | cons u us => rfl

theorem normTok_cons_head (c : Char) (t : List Char) (ts : List (List Char)) :
    normTok ((c :: t) :: ts) = c :: normTok (t :: ts) := by
  cases ts with
  | nil => rfl
  | cons u us => rfl

theorem tokensWS_cons_ne_nil {c : Char} (r : List Char)
    (hc : goRegexWS c = false) : tokensWS (c :: r) ≠ [] := by
  simp only [tokensWS, hc, Bool.false_eq_true, if_false]
  cases r with
  | nil => simp
  | cons d r2 =>
    by_cases hd : goRegexWS d
    · simp [hd]
    · cases htr : tokensWS (d :: r2) <;> simp [hd]

theorem collapseAux_spec (l : List Char) :
    collapseAux true l =
      (if tokensWS l = [] then [] else normTok (tokensWS l) ++ optSp (lastWS l)) ∧
    collapseAux false l =
      (if tokensWS l = [] then (if l = [] then [] else [' '])
       else optSp (headWS l) ++ normTok (tokensWS l) ++ optSp (lastWS l)) := by
  induction l with
  | nil => simp [collapseAux, tokensWS]
  | cons c r ih =>
    obtain ⟨ihT, ihF⟩ := ih
    by_cases hc : goRegexWS c
    · have htok : tokensWS (c :: r) = tokensWS r := by simp [tokensWS, hc]
      have hcT : collapseAux true (c :: r) = collapseAux true r := by
        simp [collapseAux, hc]
      have hcF : collapseAux false (c :: r) = ' ' :: collapseAux true r := by
        simp [collapseAux, hc]
      by_cases ht : tokensWS r = []
      · constructor
        · rw [hcT, ihT, if_pos ht, htok, if_pos ht]
        · rw [hcF, ihT, if_pos ht, htok, if_pos ht]
          simp
      · have hrne : r ≠ [] := by
          intro h
          rw [h] at ht
          exact ht rfl
        obtain ⟨d, r2, rfl⟩ := List.exists_cons_of_ne_nil hrne
        have hlast : lastWS (c :: d :: r2) = lastWS (d :: r2) := rfl
        constructor
        · rw [hcT, ihT, if_neg ht, htok, if_neg ht, hlast]
        · rw [hcF, ihT, if_neg ht, htok, if_neg ht, hlast]
          have hhead : headWS (c :: d :: r2) = true := hc
          rw [hhead]
          simp [optSp]
    · have hcB : goRegexWS c = false := by simpa using hc
      have hcT : collapseAux true (c :: r) = c :: collapseAux false r := by
        simp [collapseAux, hcB]
      have hcF : collapseAux false (c :: r) = c :: collapseAux false r := by
        simp [collapseAux, hcB]
      have hhead : headWS (c :: r) = false := hcB
      cases r with
      | nil =>
        constructor
        · rw [hcT]
          simp [collapseAux, tokensWS, hcB, normTok, lastWS, optSp]
        · rw [hcF]
          simp [collapseAux, tokensWS, hcB, normTok, lastWS, optSp, headWS]
      | cons d r2 =>
        have hlast : lastWS (c :: d :: r2) = lastWS (d :: r2) := rfl
        by_cases hd : goRegexWS d
        · have htok : tokensWS (c :: d :: r2) = [c] :: tokensWS (d :: r2) := by
            simp [tokensWS, hcB, hd]
          by_cases ht : tokensWS (d :: r2) = []
          · have hall : ∀ x ∈ d :: r2, goRegexWS x = true := (tokensWS_eq_nil _).1 ht
            have hlw : lastWS (d :: r2) = true := lastWS_all_ws hall (by simp)
            have hrhs : collapseAux false (d :: r2) = [' '] := by
              rw [ihF, if_pos ht]
              simp
            constructor
            · rw [hcT, hrhs, htok, if_neg (by simp), ht, hlast, hlw]
              simp [normTok, optSp]
            · rw [hcF, hrhs, htok, if_neg (by simp), ht, hlast, hlw, hhead]
              simp [normTok, optSp]
          · have hrhs : collapseAux false (d :: r2) =
                [' '] ++ normTok (tokensWS (d :: r2)) ++ optSp (lastWS (d :: r2)) := by
              rw [ihF, if_neg ht]
              have : headWS (d :: r2) = true := hd
              rw [this]
              simp [optSp]
            constructor
            · rw [hcT, hrhs, htok, if_neg (by simp), hlast, normTok_cons ht]
              simp
            · rw [hcF, hrhs, htok, if_neg (by simp), hlast, normTok_cons ht, hhead]
              simp [optSp]
        · have hdB : goRegexWS d = false := by simpa using hd
          have htne : tokensWS (d :: r2) ≠ [] := tokensWS_cons_ne_nil r2 hdB
          obtain ⟨t, ts, htok2⟩ := List.exists_cons_of_ne_nil htne
          have hstep : tokensWS (c :: d :: r2) =
              if goRegexWS c = true then tokensWS (d :: r2)
              else if goRegexWS d = true then [c] :: tokensWS (d :: r2)
              else match tokensWS (d :: r2) with
                | [] => [[c]]
                | t :: ts => (c :: t) :: ts := rfl
          have htok : tokensWS (c :: d :: r2) = (c :: t) :: ts := by
            rw [hstep, if_neg (by simp [hcB]), if_neg (by simp [hdB]), htok2]
          have hrhs : collapseAux false (d :: r2) =
              normTok (tokensWS (d :: r2)) ++ optSp (lastWS (d :: r2)) := by
            rw [ihF, if_neg htne]
            have : headWS (d :: r2) = false := hdB
            rw [this]
            simp [optSp]
          constructor
          · rw [hcT, hrhs, htok, if_neg (by simp), hlast, htok2, normTok_cons_head]
            simp
          · rw [hcF, hrhs, htok, if_neg (by simp), hlast, htok2, normTok_cons_head, hhead]
            simp [optSp]

theorem dropWhile_append_all {p : Char → Bool} {a : List Char} (y : List Char)
    (ha : ∀ c ∈ a, p c = true) :
    (a ++ y).dropWhile p = y.dropWhile p := by
  induction a with
  | nil => rfl
  | cons c rest ih =>
    rw [List.cons_append, List.dropWhile_cons, if_pos (ha c (List.mem_cons_self _ _))]
    exact ih (fun x hx => ha x (List.mem_cons_of_mem _ hx))

theorem dropWhile_append_ne {p : Char → Bool} {x : List Char} (y : List Char)
    (hx : x.dropWhile p ≠ []) :
    (x ++ y).dropWhile p = x.dropWhile p ++ y := by
  induction x with
  | nil => simp at hx
  | cons c rest ih =>
    by_cases hc : p c
    · rw [List.dropWhile_cons, if_pos hc] at hx
      rw [List.cons_append, List.dropWhile_cons, if_pos hc, List.dropWhile_cons,
        if_pos hc]
      exact ih hx
    · rw [List.cons_append, List.dropWhile_cons,
        if_neg (by simpa using hc), List.dropWhile_cons, if_neg (by simpa using hc)]
      simp

theorem goTrimList_space_left (x : List Char) :
    goTrimList (' ' :: x) = goTrimList x := by
  unfold goTrimList
  rw [List.dropWhile_cons, if_pos (by decide : goUnicodeSpace ' ' = true)]

theorem goTrimList_space_right (x : List Char) :
    goTrimList (x ++ [' ']) = goTrimList x := by
  unfold goTrimList
  by_cases hx : x.dropWhile goUnicodeSpace = []
  · have hall : ∀ c ∈ x, goUnicodeSpace c = true :=
      List.dropWhile_eq_nil_iff.1 hx
    rw [dropWhile_append_all _ hall, hx]
    rfl
  · rw [dropWhile_append_ne _ hx, List.reverse_append]
    rw [show ([' '] : List Char).reverse = [' '] from rfl, List.singleton_append,
      List.dropWhile_cons, if_pos (by decide : goUnicodeSpace ' ' = true)]

theorem goTrimList_pad (x : List Char) (b1 b2 : Bool) :
    goTrimList (optSp b1 ++ x ++ optSp b2) = goTrimList x := by
  cases b1 <;> cases b2 <;>
    simp only [optSp, Bool.false_eq_true, if_false, if_true, List.nil_append,
      List.append_nil, List.singleton_append]
  · rw [goTrimList_space_right]
  · rw [goTrimList_space_left]
  · rw [List.cons_append, goTrimList_space_left, goTrimList_space_right]

theorem normalizeWS_eq_tokens (s : String) :
    normalizeWS s = ⟨goTrimList (normTok (tokensWS s.data))⟩ := by
  unfold normalizeWS
  congr 1
  rw [(collapseAux_spec s.data).2]
  by_cases ht : tokensWS s.data = []
  · rw [if_pos ht, ht]
    by_cases hl : s.data = []
    · rw [if_pos hl]
      rfl
    · rw [if_neg hl]
      decide
  · rw [if_neg ht]
    exact goTrimList_pad (normTok (tokensWS s.data)) (headWS s.data) (lastWS s.data)

theorem normalizeWS_congr_tokens {a b : String}
    (h : tokensWS a.data = tokensWS b.data) : normalizeWS a = normalizeWS b := by
  rw [normalizeWS_eq_tokens, normalizeWS_eq_tokens, h]

/-- C4: free-text values that differ only in whitespace runs (same token
sequence) never produce a field diff; and every free-text value stored in a
field diff, old and new, Added or Modified, is the whitespace-normalized
form, never the raw original. -/
theorem c4_whitespace_normalization :
    (∀ (cur : ApiPolicy) (p : ParsedPolicy),
      (tokensWS cur.query.data = tokensWS p.query.data →
        List.lookup "query" (policyFields cur p) = none) ∧
      (tokensWS cur.description.data = tokensWS p.description.data →
        List.lookup "description" (policyFields cur p) = none) ∧
      (tokensWS cur.resolution.data = tokensWS p.resolution.data →
        List.lookup "resolution" (policyFields cur p) = none) ∧
      (∀ fd, List.lookup "query" (policyFields cur p) = some fd →
        fd = FieldDiff.mk (normalizeWS cur.query) (normalizeWS p.query)) ∧
      (∀ fd, List.lookup "description" (policyFields cur p) = some fd →
        fd = FieldDiff.mk (normalizeWS cur.description) (normalizeWS p.description)) ∧
      (∀ fd, List.lookup "resolution" (policyFields cur p) = some fd →
        fd = FieldDiff.mk (normalizeWS cur.resolution) (normalizeWS p.resolution)) ∧
      List.lookup "query" (mkAddedPolicyFields p) =
        some (FieldDiff.mk "" (normalizeWS p.query))) ∧
    (∀ (cur : ApiQuery) (q : ParsedQuery),
      (tokensWS cur.query.data = tokensWS q.query.data →
        List.lookup "query" (queryFields cur q) = none) ∧
      (∀ fd, List.lookup "query" (queryFields cur q) = some fd →
        fd = FieldDiff.mk (normalizeWS cur.query) (normalizeWS q.query)) ∧
      List.lookup "query" (mkAddedQueryFields q) =
        some (FieldDiff.mk "" (normalizeWS q.query))) ∧
    (∀ (current : List ApiPolicy) (proposed : List ParsedPolicy),
      ∀ e ∈ (diffPolicies current proposed).modified,
        ∃ p cur, p ∈ proposed ∧ goMapGet ApiPolicy.name current p.name = some cur ∧
          e.name = p.name ∧ e.fields = policyFields cur p) := by
  refine ⟨fun cur p => ⟨?_, ?_, ?_, ?_, ?_, ?_, ?_⟩, fun cur q => ⟨?_, ?_, ?_⟩,
    fun current proposed e he => ?_⟩
  · intro h
    rw [policyFields]
    split_ifs <;>
      first
      | rfl
      | exact absurd (normalizeWS_congr_tokens h) (by assumption)
  · intro h
    rw [policyFields]
    split_ifs <;>
      first
      | rfl
      | exact absurd (normalizeWS_congr_tokens h) (by assumption)
  · intro h
    rw [policyFields]
    split_ifs <;>
      first
      | rfl
      | exact absurd (normalizeWS_congr_tokens h) (by assumption)
  · intro fd hfd
    rw [policyFields] at hfd
    split_ifs at hfd <;> simp [List.lookup] at hfd <;>
      first
      | (exact hfd.symm)
      | (exact hfd)
  · intro fd hfd
    rw [policyFields] at hfd
    split_ifs at hfd <;> simp [List.lookup] at hfd <;>
      first
      | (exact hfd.symm)
      | (exact hfd)
  · intro fd hfd
    rw [policyFields] at hfd
    split_ifs at hfd <;> simp [List.lookup] at hfd <;>
      first
      | (exact hfd.symm)
      | (exact hfd)
  · rfl
  · intro h
    rw [queryFields]
    split_ifs <;>
      first
      | rfl
      | exact absurd (normalizeWS_congr_tokens h) (by assumption)
  · intro fd hfd
    rw [queryFields] at hfd
    split_ifs at hfd <;> simp [List.lookup] at hfd <;>
      first
      | (exact hfd.symm)
      | (exact hfd)
  · rfl
  · simp only [diffPolicies, List.mem_filterMap] at he
    obtain ⟨p, hp, hfe⟩ := he
    cases hg : goMapGet ApiPolicy.name current p.name with
    | none =>
      rw [hg] at hfe
      cases hfe
    | some cur =>
      rw [hg] at hfe
      by_cases hf : policyFields cur p = []
      · simp [hf] at hfe
      · simp [hf] at hfe
        subst hfe
        exact ⟨p, cur, hp, hg, rfl, rfl⟩

/-- Witness for C4: a query text differing only by whitespace runs from its
remote counterpart produces no query field diff for the matched pair. -/
theorem c4_witness :
    List.lookup "query" (policyFields
      (ApiPolicy.mk "X" "SELECT 1;" "" "" "" false 0 0)
      (ParsedPolicy.mk "X" "" "" "SELECT   1;\n" "" false [] [])) = none := by
  exact (c4_whitespace_normalization.1
    (ApiPolicy.mk "X" "SELECT 1;" "" "" "" false 0 0)
    (ParsedPolicy.mk "X" "" "" "SELECT   1;\n" "" false [] [])).1 (by decide)

/-! ## C7: identity-key uniqueness at parse time -/

/-- Flattened per-package steps of the software assembly loop: each
reference paired with each of its resolved packages, in loop order. -/
def softwareSteps (refs : List SoftwareRefInput) :
    List (SoftwareRefInput × (ParsedSoftwarePackage × Option String)) :=
  refs.flatMap (fun ref => ref.resolved.map (fun pr => (ref, pr)))

/-- Canonical reference computed by one flattened step. -/
def stepCanonical (x : SoftwareRefInput × (ParsedSoftwarePackage × Option String)) :
    String :=
  canonicalSoftwareRef x.1.refPath x.2.2

/-- The duplicate-reference validation error (parseTeamFile lines 371-374). -/
def dupSoftwareErr (teamFile c : String) : ParseError :=
  ⟨teamFile, "duplicate software package reference: " ++ goQuote c⟩

theorem parseTeamSoftware_flat_aux (tf : String) (refs : List SoftwareRefInput)
    (herrs : ∀ ref ∈ refs, ref.errs = [])
    (st : List String × List ParsedSoftwarePackage × List ParseError) :
    refs.foldl (fun st ref =>
        ref.resolved.foldl (softwarePkgStep tf ref) (st.1, st.2.1, st.2.2 ++ ref.errs)) st
      = (softwareSteps refs).foldl (fun st x => softwarePkgStep tf x.1 st x.2) st := by
  induction refs generalizing st with
  | nil => simp [softwareSteps]
  | cons r rest ih =>
    rw [List.foldl_cons, herrs r (List.mem_cons_self _ _), List.append_nil]
    rw [show (st.1, st.2.1, st.2.2) = st from rfl]
    rw [show softwareSteps (r :: rest) =
      r.resolved.map (fun pr => (r, pr)) ++ softwareSteps rest from by
        simp [softwareSteps]]
    rw [List.foldl_append, List.foldl_map]
    exact ih (fun x hx => herrs x (List.mem_cons_of_mem _ hx)) _

theorem softwarePkgStep_seen_grows (tf : String) (r : SoftwareRefInput)
    (st : List String × List ParsedSoftwarePackage × List ParseError)
    (pr : ParsedSoftwarePackage × Option String) :
    ∃ t, (softwarePkgStep tf r st pr).1 = st.1 ++ t := by
  unfold softwarePkgStep
  split_ifs
  · exact ⟨[], by simp⟩
  · exact ⟨_, rfl⟩
  · exact ⟨[], by simp⟩

theorem softwarePkgStep_errs_grow (tf : String) (r : SoftwareRefInput)
    (st : List String × List ParsedSoftwarePackage × List ParseError)
    (pr : ParsedSoftwarePackage × Option String) :
    ∃ t, (softwarePkgStep tf r st pr).2.2 = st.2.2 ++ t := by
  unfold softwarePkgStep
  split_ifs
  · exact ⟨_, rfl⟩
  · exact ⟨[], by simp⟩
  · exact ⟨[], by simp⟩

theorem foldl_steps_seen_grows (tf : String)
    (l : List (SoftwareRefInput × (ParsedSoftwarePackage × Option String)))
    (st : List String × List ParsedSoftwarePackage × List ParseError) :
    ∃ t, (l.foldl (fun st x => softwarePkgStep tf x.1 st x.2) st).1 = st.1 ++ t := by
  induction l generalizing st with
  | nil => exact ⟨[], by simp⟩
  | cons x rest ih =>
    obtain ⟨t1, ht1⟩ := softwarePkgStep_seen_grows tf x.1 st x.2
    obtain ⟨t2, ht2⟩ := ih (softwarePkgStep tf x.1 st x.2)
    exact ⟨t1 ++ t2, by rw [List.foldl_cons, ht2, ht1, List.append_assoc]⟩

theorem foldl_steps_errs_grow (tf : String)
    (l : List (SoftwareRefInput × (ParsedSoftwarePackage × Option String)))
    (st : List String × List ParsedSoftwarePackage × List ParseError) :
    ∃ t, (l.foldl (fun st x => softwarePkgStep tf x.1 st x.2) st).2.2 = st.2.2 ++ t := by
  induction l generalizing st with
  | nil => exact ⟨[], by simp⟩
  | cons x rest ih =>
    obtain ⟨t1, ht1⟩ := softwarePkgStep_errs_grow tf x.1 st x.2
    obtain ⟨t2, ht2⟩ := ih (softwarePkgStep tf x.1 st x.2)
    exact ⟨t1 ++ t2, by rw [List.foldl_cons, ht2, ht1, List.append_assoc]⟩

theorem foldl_steps_invariant (tf : String)
    (l : List (SoftwareRefInput × (ParsedSoftwarePackage × Option String)))
    (st : List String × List ParsedSoftwarePackage × List ParseError)
    (hinv : (st.2.1.map (fun p => p.refPath)).filter (fun r => r ≠ "") = st.1)
    (hnd : st.1.Nodup) :
    ((((l.foldl (fun st x => softwarePkgStep tf x.1 st x.2) st).2.1.map
        (fun p => p.refPath)).filter (fun r => r ≠ "")) =
      (l.foldl (fun st x => softwarePkgStep tf x.1 st x.2) st).1) ∧
    (l.foldl (fun st x => softwarePkgStep tf x.1 st x.2) st).1.Nodup := by
  induction l generalizing st with
  | nil => exact ⟨hinv, hnd⟩
  | cons x rest ih =>
    rw [List.foldl_cons]
    refine ih (softwarePkgStep tf x.1 st x.2) ?_ ?_
    · unfold softwarePkgStep
      split_ifs with h1 h2
      · exact hinv
      · simp only [List.map_append, List.filter_append, hinv]
        simp [h1]
      · simp only [List.map_append, List.filter_append, hinv]
        push_neg at h1
        simp [h1]
    · unfold softwarePkgStep
      split_ifs with h1 h2
      · exact hnd
      · exact List.Nodup.append hnd (List.nodup_singleton _) (by simpa using h2)
      · exact hnd

theorem foldl_steps_coverage (tf : String)
    (l : List (SoftwareRefInput × (ParsedSoftwarePackage × Option String)))
    (st : List String × List ParsedSoftwarePackage × List ParseError) :
    ∀ x ∈ l, stepCanonical x ≠ "" →
      stepCanonical x ∈ (l.foldl (fun st x => softwarePkgStep tf x.1 st x.2) st).1 := by
  induction l generalizing st with
  | nil => intro x hx; cases hx
  | cons y rest ih =>
    intro x hx hne
    rcases List.mem_cons.1 hx with rfl | hx
    · rw [List.foldl_cons]
      obtain ⟨t, ht⟩ := foldl_steps_seen_grows tf rest (softwarePkgStep tf x.1 st x.2)
      rw [ht]
      refine List.mem_append.2 (Or.inl ?_)
      unfold softwarePkgStep
      unfold stepCanonical at hne ⊢
      split_ifs with h1
      · exact h1
      · simp
    · rw [List.foldl_cons]
      exact ih _ x hx hne

theorem foldl_steps_dup (tf : String)
    (l : List (SoftwareRefInput × (ParsedSoftwarePackage × Option String)))
    (st : List String × List ParsedSoftwarePackage × List ParseError)
    (c : String) (hc : c ≠ "") :
    (2 ≤ (l.map stepCanonical).count c →
      dupSoftwareErr tf c ∈ (l.foldl (fun st x => softwarePkgStep tf x.1 st x.2) st).2.2) ∧
    (1 ≤ (l.map stepCanonical).count c → c ∈ st.1 →
      dupSoftwareErr tf c ∈ (l.foldl (fun st x => softwarePkgStep tf x.1 st x.2) st).2.2) ∧
    (dupSoftwareErr tf c ∈ st.2.2 →
      dupSoftwareErr tf c ∈ (l.foldl (fun st x => softwarePkgStep tf x.1 st x.2) st).2.2) := by
  induction l generalizing st with
  | nil =>
    refine ⟨?_, ?_, fun h => h⟩
    · intro h; simp at h
    · intro h; simp at h
  | cons x rest ih =>
    have hstep_mono : dupSoftwareErr tf c ∈ st.2.2 →
        dupSoftwareErr tf c ∈ (softwarePkgStep tf x.1 st x.2).2.2 := by
      intro h
      obtain ⟨t, ht⟩ := softwarePkgStep_errs_grow tf x.1 st x.2
      rw [ht]
      exact List.mem_append.2 (Or.inl h)
    have hstep_seen : st.1 ⊆ (softwarePkgStep tf x.1 st x.2).1 := by
      obtain ⟨t, ht⟩ := softwarePkgStep_seen_grows tf x.1 st x.2
      rw [ht]
      exact fun a ha => List.mem_append.2 (Or.inl ha)
    have hemit : stepCanonical x = c → c ∈ st.1 →
        dupSoftwareErr tf c ∈ (softwarePkgStep tf x.1 st x.2).2.2 := by
      intro hxc hcin
      unfold softwarePkgStep
      unfold stepCanonical at hxc
      rw [hxc, if_pos hc, if_pos hcin]
      simp [dupSoftwareErr]
    have hinseen : stepCanonical x = c →
        c ∈ (softwarePkgStep tf x.1 st x.2).1 := by
      intro hxc
      unfold softwarePkgStep
      unfold stepCanonical at hxc
      rw [hxc, if_pos hc]
      by_cases hcin : c ∈ st.1
      · rw [if_pos hcin]
        exact hcin
      · rw [if_neg hcin]
        simp
    refine ⟨?_, ?_, ?_⟩
    · intro h2
      rw [List.foldl_cons]
      rw [List.map_cons, List.count_cons] at h2
      by_cases hxc : stepCanonical x = c
      · rw [if_pos (by simp [hxc])] at h2
        exact (ih (softwarePkgStep tf x.1 st x.2)).2.1 (by omega) (hinseen hxc)
      · rw [if_neg (by simp [beq_iff_eq]; exact hxc)] at h2
        exact (ih (softwarePkgStep tf x.1 st x.2)).1 (by omega)
    · intro h1 hcin
      rw [List.foldl_cons]
      rw [List.map_cons, List.count_cons] at h1
      by_cases hxc : stepCanonical x = c
      · exact (ih (softwarePkgStep tf x.1 st x.2)).2.2 (hemit hxc hcin)
      · rw [if_neg (by simp [beq_iff_eq]; exact hxc)] at h1
        exact (ih (softwarePkgStep tf x.1 st x.2)).2.1 (by omega) (hstep_seen hcin)
    · intro h
      rw [List.foldl_cons]
      exact (ih (softwarePkgStep tf x.1 st x.2)).2.2 (hstep_mono h)

/-- C7 (amended): identity-key uniqueness at parse time is enforced only
for software package references — a duplicate canonical reference is
dropped (the kept nonempty canonical references are pairwise distinct,
every resolved reference is represented) and a duplicate error is
recorded; policy, query and profile collections are concatenated with no
duplicate-name guard at parse time. -/
theorem c7_software_dedup_only (tf : String) (refs : List SoftwareRefInput)
    (herrs : ∀ ref ∈ refs, ref.errs = []) :
    ((((parseTeamSoftware tf refs).1.map (fun p => p.refPath)).filter
      (fun r => r ≠ "")).Nodup) ∧
    (∀ ref ∈ refs, ∀ pr ∈ ref.resolved,
      canonicalSoftwareRef ref.refPath pr.2 ≠ "" →
      canonicalSoftwareRef ref.refPath pr.2 ∈
        (parseTeamSoftware tf refs).1.map (fun p => p.refPath)) ∧
    (∀ c, c ≠ "" → 2 ≤ ((softwareSteps refs).map stepCanonical).count c →
      dupSoftwareErr tf c ∈ (parseTeamSoftware tf refs).2) ∧
    (∀ resolved : List (List ParsedPolicy × List ParseError),
      (parseTeamPolicies resolved).1 = (resolved.map (fun r => r.1)).flatten ∧
      (parseTeamPolicies resolved).2 = (resolved.map (fun r => r.2)).flatten) := by
  have hflat : parseTeamSoftware tf refs =
      (((softwareSteps refs).foldl (fun st x => softwarePkgStep tf x.1 st x.2)
        ([], [], [])).2.1,
       ((softwareSteps refs).foldl (fun st x => softwarePkgStep tf x.1 st x.2)
        ([], [], [])).2.2) := by
    unfold parseTeamSoftware
    rw [parseTeamSoftware_flat_aux tf refs herrs]
  refine ⟨?_, ?_, ?_, ?_⟩
  · rw [hflat]
    have h := foldl_steps_invariant tf (softwareSteps refs) ([], [], []) rfl
      List.nodup_nil
    rw [h.1]
    exact h.2
  · intro ref href pr hpr hne
    rw [hflat]
    have hx : (ref, pr) ∈ softwareSteps refs := by
      unfold softwareSteps
      simp only [List.mem_flatMap, List.mem_map]
      exact ⟨ref, href, pr, hpr, rfl⟩
    have hcov := foldl_steps_coverage tf (softwareSteps refs) ([], [], [])
      (ref, pr) hx hne
    have h := foldl_steps_invariant tf (softwareSteps refs) ([], [], []) rfl
      List.nodup_nil
    rw [← h.1] at hcov
    simp only [List.mem_filter] at hcov
    exact hcov.1
  · intro c hc h2
    rw [hflat]
    exact (foldl_steps_dup tf (softwareSteps refs) ([], [], []) c hc).1 h2
  · intro resolved
    unfold parseTeamPolicies
    rw [foldl_pair_append (fun r => r.1) (fun r => r.2) resolved [] []]
    simp

/-- C7 counterexample: two policies with the same identity key declared in
one group are both kept in the normalized model and no error is recorded —
the later occurrence is neither dropped nor reported. -/
theorem c7_counterexample :
    (parseTeamPolicies [([ParsedPolicy.mk "A" "" "" "q1" "" false [] [],
        ParsedPolicy.mk "A" "" "" "q2" "" false [] []], [])]).1.map
      (fun p => p.name) = ["A", "A"] ∧
    (parseTeamPolicies [([ParsedPolicy.mk "A" "" "" "q1" "" false [] [],
        ParsedPolicy.mk "A" "" "" "q2" "" false [] []], [])]).2 = [] :=
  ⟨rfl, rfl⟩

/-- Witness for C7: a concrete duplicated software reference is dropped and
recorded once, while distinct references are kept. -/
theorem c7_witness :
    ((((parseTeamSoftware "teams/ws.yml"
      [SoftwareRefInput.mk "../software/slack.yml" none
        [(ParsedSoftwarePackage.mk "https://a" "" false "" "", none)] [],
       SoftwareRefInput.mk "../software/slack.yml" none
        [(ParsedSoftwarePackage.mk "https://a" "" false "" "", none)] []]).1.map
      (fun p => p.refPath)).filter (fun r => r ≠ "")).Nodup) ∧
    dupSoftwareErr "teams/ws.yml" "software/slack.yml" ∈
      (parseTeamSoftware "teams/ws.yml"
        [SoftwareRefInput.mk "../software/slack.yml" none
          [(ParsedSoftwarePackage.mk "https://a" "" false "" "", none)] [],
         SoftwareRefInput.mk "../software/slack.yml" none
          [(ParsedSoftwarePackage.mk "https://a" "" false "" "", none)] []]).2 := by
  have h := c7_software_dedup_only "teams/ws.yml"
    [SoftwareRefInput.mk "../software/slack.yml" none
      [(ParsedSoftwarePackage.mk "https://a" "" false "" "", none)] [],
     SoftwareRefInput.mk "../software/slack.yml" none
      [(ParsedSoftwarePackage.mk "https://a" "" false "" "", none)] []]
    (by intro ref href; fin_cases href <;> rfl)
  exact ⟨h.1, h.2.2.1 "software/slack.yml" (by decide) (by decide)⟩

/-! ## C2: a proposed team absent from the remote snapshot -/

/-- C2 (amended): for a proposed team whose name is absent from the remote
snapshot and does not case-insensitively match the reserved "No team"
sentinel, every declared policy and query appears as an Added entry and
exactly one informational message is attached; but software and profiles
are not diffed at all (their buckets come back empty). -/
theorem c2_new_team (currentTeams : List ApiTeam) (labels : List ApiLabel)
    (catalog : List FleetMaintainedApp) (t : ParsedTeam)
    (h1 : goMapGet ApiTeam.name currentTeams t.name = none)
    (h2 : goEqualFold t.name "No team" = false) :
    (diffTeam currentTeams labels catalog t).policies.added
        = t.policies.map (fun p => ResourceChange.mk p.name [] 0 "") ∧
    (diffTeam currentTeams labels catalog t).policies.modified = [] ∧
    (diffTeam currentTeams labels catalog t).policies.deleted = [] ∧
    (diffTeam currentTeams labels catalog t).queries.added
        = t.queries.map (fun q => ResourceChange.mk q.name [] 0 "") ∧
    (diffTeam currentTeams labels catalog t).queries.modified = [] ∧
    (diffTeam currentTeams labels catalog t).queries.deleted = [] ∧
    (diffTeam currentTeams labels catalog t).software = ResourceDiff.mk [] [] [] ∧
    (diffTeam currentTeams labels catalog t).profiles = ResourceDiff.mk [] [] [] ∧
    (diffTeam currentTeams labels catalog t).errors = [newTeamMsg t.name] := by
  simp [diffTeam, h1, h2]

/-- Witness for C2: a concrete new team with one policy gets that policy
Added and the single informational message. -/
theorem c2_new_team_witness :
    (diffTeam [] [] [] (ParsedTeam.mk "Eng"
        [ParsedPolicy.mk "P1" "" "" "q" "darwin" false [] []] []
        (ParsedSoftware.mk [] [] []) [])).policies.added
      = [ResourceChange.mk "P1" [] 0 ""] ∧
    (diffTeam [] [] [] (ParsedTeam.mk "Eng"
        [ParsedPolicy.mk "P1" "" "" "q" "darwin" false [] []] []
        (ParsedSoftware.mk [] [] []) [])).errors
      = ["info: team \"Eng\" does not exist in Fleet yet (will be created)"] := by
  have h := c2_new_team [] [] []
    (ParsedTeam.mk "Eng" [ParsedPolicy.mk "P1" "" "" "q" "darwin" false [] []] []
      (ParsedSoftware.mk [] [] []) []) rfl (by decide)
  exact ⟨h.1, h.2.2.2.2.2.2.2.2⟩

/-- C2 counterexample: a proposed new team declaring a profile and a
fleet-maintained app gets empty software and profile buckets, so not every
declared resource appears as an Added entry as the claim states. -/
theorem c2_counterexample :
    (diffTeam [] [] [] (ParsedTeam.mk "Eng" [] []
        (ParsedSoftware.mk [] [ParsedFleetApp.mk "zoom/darwin" false] [])
        [ParsedProfile.mk "p.mobileconfig" "P" "darwin"])).profiles
      = ResourceDiff.mk [] [] [] ∧
    (diffTeam [] [] [] (ParsedTeam.mk "Eng" [] []
        (ParsedSoftware.mk [] [ParsedFleetApp.mk "zoom/darwin" false] [])
        [ParsedProfile.mk "p.mobileconfig" "P" "darwin"])).software
      = ResourceDiff.mk [] [] [] ∧
    (ParsedTeam.mk "Eng" [] []
        (ParsedSoftware.mk [] [ParsedFleetApp.mk "zoom/darwin" false] [])
        [ParsedProfile.mk "p.mobileconfig" "P" "darwin"]).profiles ≠ [] ∧
    (ParsedTeam.mk "Eng" [] []
        (ParsedSoftware.mk [] [ParsedFleetApp.mk "zoom/darwin" false] [])
        [ParsedProfile.mk "p.mobileconfig" "P" "darwin"]).software.fleetMaintained ≠ [] ∧
    (diffTeam [] [] [] (ParsedTeam.mk "Eng" [] []
        (ParsedSoftware.mk [] [ParsedFleetApp.mk "zoom/darwin" false] [])
        [ParsedProfile.mk "p.mobileconfig" "P" "darwin"])).errors
      = ["info: team \"Eng\" does not exist in Fleet yet (will be created)"] := by
  refine ⟨rfl, rfl, by decide, by decide, rfl⟩

/-! ## C6: profile identity derivation -/

theorem extractLoopFuel_eq_getLastD (fuel : Nat) :
    ∀ (rem : List Char) (last : String),
    extractLoopFuel fuel rem last = (pdnValuesFuel fuel rem).getLastD last := by
  induction fuel with
  | zero => intro rem last; rfl
  | succ fuel ih =>
    intro rem last
    unfold extractLoopFuel pdnValuesFuel
    cases hsi : subIndex needlePDN rem with
    | none => rfl
    | some idx =>
      cases hev : extractValueAt (rem.drop (idx + needlePDN.length)) with
      | none =>
        dsimp only
        rw [hev]
        rw [ih]
        simp
      | some v =>
        dsimp only
        rw [hev]
        rw [ih]
        rw [List.singleton_append, List.getLastD_cons]

/-- C6 (amended): for a profile file recognized as a plist-style
declarative config whose content is readable and within the size bound,
the identity is the value of the last marker occurrence that yields a
string value (later occurrences without a parseable string value are
ignored, keeping the earlier value), with the stripped filename as
fallback when no occurrence yields a value; for every other format, an
unreadable file, or an oversized file, the identity is the stripped
filename. -/
theorem c6_profile_identity (filePath : String) (content : Option String) :
    (∀ d, content = some d →
      ".mobileconfig".data.isSuffixOf (goToLower filePath).data = true →
      d.length ≤ maxProfileSize →
      profileIdentity filePath content =
        if (pdnValues d.data).getLastD "" = "" then profileNameFromFilename filePath
        else (pdnValues d.data).getLastD "") ∧
    (".mobileconfig".data.isSuffixOf (goToLower filePath).data = false →
      profileIdentity filePath content = profileNameFromFilename filePath) ∧
    (content = none → profileIdentity filePath content = profileNameFromFilename filePath) ∧
    (∀ d, content = some d → maxProfileSize < d.length →
      profileIdentity filePath content = profileNameFromFilename filePath) := by
  refine ⟨?_, ?_, ?_, ?_⟩
  · intro d hd hmc hsz
    subst hd
    simp only [profileIdentity, extractProfileName, hmc, if_true]
    rw [if_neg (by omega : ¬ d.length > maxProfileSize)]
    unfold extractMobileconfigName
    rw [extractLoopFuel_eq_getLastD]
    rfl
  · intro hmc
    simp [profileIdentity, extractProfileName, hmc]
  · intro h
    subst h
    have he : extractProfileName filePath none = "" := by
      unfold extractProfileName
      split_ifs <;> rfl
    simp [profileIdentity, he]
  · intro d hd hgt
    subst hd
    have he : extractProfileName filePath (some d) = "" := by
      unfold extractProfileName
      dsimp only
      split_ifs with h1
      · rfl
      · rfl
    simp [profileIdentity, he]

/-- Document for the C6 counterexample and witness: the last marker
occurrence is followed by an integer value, so the scan keeps the earlier
string value while a last-occurrence reading yields nothing. -/
def c6doc : String :=
  "<key>PayloadDisplayName</key><string>A</string>" ++
  "<key>PayloadDisplayName</key><integer>5</integer>"

/-- C6 counterexample: the code keeps the value of the last occurrence
that yields one ("A"), while the identity of the spec - the value
following the last textual occurrence of the marker - does not exist
here, so the spec falls back to the stripped filename ("p"). -/
theorem c6_counterexample :
    profileIdentity "p.mobileconfig" (some c6doc) = "A" ∧
    specProfileIdentity "p.mobileconfig" (some c6doc) = "p" := by
  refine ⟨by decide, by decide⟩

/-- Witness for C6: the amended characterization evaluated on the concrete
document. -/
theorem c6_witness :
    profileIdentity "p.mobileconfig" (some c6doc) =
      (if (pdnValues c6doc.data).getLastD "" = "" then
        profileNameFromFilename "p.mobileconfig"
       else (pdnValues c6doc.data).getLastD "") :=
  (c6_profile_identity "p.mobileconfig" (some c6doc)).1 c6doc rfl (by decide) (by decide)

end FleetPlan
